import Mathlib

/-!
Verification development for the `wasm-maze-generator` repository
(`main.go`, final iteration).  The Go program is shallowly embedded:

* `position`, `direction`, `cell`, `maze` mirror the structures of the
  source; the Go slice `cells []cell` indexed by `y*width+x` becomes a
  `List cell` with the same index map.
* Go's `*rand.Rand` is modelled by `Rng`, a deterministic stream of
  naturals together with a cursor; `Rng.intn n` returns a value `< n`
  and advances the cursor, exactly the interface the program uses
  (`rng.Intn(width)` in `newMaze`, `rng.Intn(len(permutations))` in
  `generate`).  The pointer held inside the Go `maze` struct is threaded
  explicitly instead, since the embedding is pure.
* The two `while` loops (`generate`, `solve`) become fueled recursion;
  the fuel `2*height*width + 2` is proved sufficient below (the loop
  measure `2*(cells - visited) + stackLength` strictly decreases).
* The Go stack slice pushes at the tail and peeks the tail; the
  embedding keeps the stack top-first (a `List` viewed head-first), so
  Go's `s.stack` in push order is `stk.reverse` here.
-/

/-- Directions, as in the source (`north`, `south`, `east`, `west`). -/
inductive direction : Type
  | north
  | south
  | east
  | west
deriving DecidableEq, Repr, Fintype

open direction

/-- `(d direction) opposite()` from the source. -/
def direction.opposite : direction → direction
  | north => south
  | south => north
  | east => west
  | west => east

/-- `position` is simply x/y coordinates (Go `int` becomes `Int`). -/
structure position : Type where
  x : Int
  y : Int
deriving DecidableEq, Repr

/-- A single cell: `openings [4]bool`, whether a given wall is open.
The Go array indexed by the direction ordinal becomes four fields
accessed through `cell.openings`. -/
structure cell : Type where
  openN : Bool
  openS : Bool
  openE : Bool
  openW : Bool
deriving DecidableEq, Repr

instance : Inhabited cell := ⟨⟨false, false, false, false⟩⟩

/-- `c.openings[d]` of the source. -/
def cell.openings (c : cell) : direction → Bool
  | north => c.openN
  | south => c.openS
  | east => c.openE
  | west => c.openW

/-- Assignment `c.openings[d] = b` of the source. -/
def cell.setOpening (c : cell) : direction → Bool → cell
  | north, b => { c with openN := b }
  | south, b => { c with openS := b }
  | east, b => { c with openE := b }
  | west, b => { c with openW := b }

/-- The maze structure of the source.  The `rng *rand.Rand` field is
threaded explicitly through the functions of the embedding instead of
being stored, so that grids have decidable equality ("bit-identical
grids" compare `start`, `finish`, dimensions and cell opening flags). -/
structure maze : Type where
  start : position
  finish : position
  height : Int
  width : Int
  cells : List cell
deriving DecidableEq, Repr

/-- `maxDimension = 200`: maximum number of cells in height and/or width. -/
def maxDimension : Int := 200

/-- Index map of `m.at(p)`: `p.y*m.width+p.x`. -/
def maze.idx (m : maze) (p : position) : Nat := (p.y * m.width + p.x).toNat

/-- `(m *maze) at(p position) *cell` — read access. -/
def maze.at (m : maze) (p : position) : cell := m.cells.getD (m.idx p) default

/-- Write access through the pointer returned by `at`:
`m.at(p).openings[d] = b`. -/
def maze.setOpening (m : maze) (p : position) (d : direction) (b : Bool) : maze :=
  { m with cells := m.cells.set (m.idx p) ((m.at p).setOpening d b) }

/-- The in-bounds positions of the grid. -/
def maze.inGrid (m : maze) (p : position) : Prop :=
  0 ≤ p.x ∧ p.x < m.width ∧ 0 ≤ p.y ∧ p.y < m.height

instance (m : maze) (p : position) : Decidable (m.inGrid p) := by
  unfold maze.inGrid; infer_instance

/-- `(d direction) translate(p position, m *maze) (position, error)`.
The `error` result becomes a `Bool`: `true` plays `err == nil`, and on
failure (`outOfBounds`) the input position is returned unchanged. -/
def direction.translate (d : direction) (p : position) (m : maze) : position × Bool :=
  match d with
  | north => if p.y > 0 then (⟨p.x, p.y - 1⟩, true) else (p, false)
  | south => if p.y < m.height - 1 then (⟨p.x, p.y + 1⟩, true) else (p, false)
  | west => if p.x > 0 then (⟨p.x - 1, p.y⟩, true) else (p, false)
  | east => if p.x < m.width - 1 then (⟨p.x + 1, p.y⟩, true) else (p, false)

/-- The pure one-cell displacement in a direction, used to state what
`translate` computes (the unit moves of the four `case` arms). -/
def direction.moveOne (d : direction) (p : position) : position :=
  match d with
  | north => ⟨p.x, p.y - 1⟩
  | south => ⟨p.x, p.y + 1⟩
  | west => ⟨p.x - 1, p.y⟩
  | east => ⟨p.x + 1, p.y⟩

/-- Model of Go's `*rand.Rand`: a deterministic stream of naturals with
a cursor.  `rand.New(rand.NewSource(seed))` determines the stream from
the seed alone; every `Intn` call consumes one stream element. -/
structure Rng : Type where
  stream : Nat → Nat
  idx : Nat

/-- `rng.Intn(n)`: a value in `[0, n)` (for `n > 0`), advancing the
cursor. -/
def Rng.intn (r : Rng) (n : Nat) : Nat × Rng :=
  (r.stream r.idx % n, ⟨r.stream, r.idx + 1⟩)

/-- `newMaze(height, width int, rng *rand.Rand, oppositeStart bool)`.
`none` models the `panic("invalid call to newMaze")`.  The `rng == nil`
disjunct of the Go guard is dropped: an `Rng` value is always present
in the embedding.  Both `rng.Intn(width)` draws happen before the
`oppositeStart` override, as in the source. -/
def newMaze (height width : Int) (rng : Rng) (oppositeStart : Bool) :
    Option (maze × Rng) :=
  if width < 2 ∨ height < 2 then none
  else
    let s := (rng.intn width.toNat).1
    let rng1 := (rng.intn width.toNat).2
    let e := (rng1.intn width.toNat).1
    let rng2 := (rng1.intn width.toNat).2
    let start : position := if oppositeStart then ⟨0, 0⟩ else ⟨(s : Int), 0⟩
    let finish : position :=
      if oppositeStart then ⟨width - 1, height - 1⟩ else ⟨(e : Int), height - 1⟩
    some ({ start := start, finish := finish, height := height, width := width,
            cells := List.replicate (height * width).toNat default }, rng2)

/-- The 24 precomputed direction permutations of the source, in order. -/
def permutations : List (List direction) :=
  [[north, south, east, west],
   [north, south, west, east],
   [north, east, south, west],
   [north, east, west, south],
   [north, west, south, east],
   [north, west, east, south],
   [south, north, east, west],
   [south, north, west, east],
   [south, east, north, west],
   [south, east, west, north],
   [south, west, north, east],
   [south, west, east, north],
   [east, north, south, west],
   [east, north, west, south],
   [east, south, north, west],
   [east, south, west, north],
   [east, west, north, south],
   [east, west, south, north],
   [west, north, south, east],
   [west, north, east, south],
   [west, south, north, east],
   [west, south, east, north],
   [west, east, north, south],
   [west, east, south, north]]

/-- `(m *maze) carve(p position, d direction)`: open the wall at `p`
toward `d`, and, when the move stays in bounds, the opposite wall of
the neighbour. -/
def maze.carve (m : maze) (p : position) (d : direction) : maze :=
  let m1 := m.setOpening p d true
  let (np, ok) := d.translate p m1
  if ok then m1.setOpening np d.opposite true else m1

/-- The inner direction scan of `generate`'s loop: the first direction
of `dirs` whose `translate` succeeds (`err == nil`) and whose target is
not yet visited, together with that target. -/
def scanDirs (m : maze) (visited : List position) (p : position) :
    List direction → Option (direction × position)
  | [] => none
  | d :: ds =>
    if (d.translate p m).2 = true ∧ (d.translate p m).1 ∉ visited then
      some (d, (d.translate p m).1)
    else scanDirs m visited p ds

/-- The mutable state of `generate`'s loop: the maze being carved, the
explicit stack (top-first here; Go pushes at the slice tail), the
visited map (as its list of keys, newest first) and the random source. -/
structure GState : Type where
  m : maze
  stk : List position
  visited : List position
  rng : Rng

/-- One iteration of `generate`'s `for !stack.empty()` loop body. -/
def genStep (s : GState) : GState :=
  match s.stk with
  | [] => s
  | p :: rest =>
    let k := (s.rng.intn permutations.length).1
    let rng' := (s.rng.intn permutations.length).2
    let dirs := permutations.getD k []
    match scanDirs s.m s.visited p dirs with
    | some dnp =>
      { m := s.m.carve p dnp.1, stk := dnp.2 :: p :: rest,
        visited := dnp.2 :: s.visited, rng := rng' }
    | none => { m := s.m, stk := rest, visited := s.visited, rng := rng' }

/-- The fueled `for !stack.empty()` loop of `generate`. -/
def genLoop : Nat → GState → GState
  | 0, s => s
  | fuel + 1, s => if s.stk = [] then s else genLoop fuel (genStep s)

/-- Fuel that the loop measure proof shows sufficient. -/
def maze.genFuel (m : maze) : Nat := 2 * (m.height * m.width).toNat + 2

/-- `(m *maze) generate()`: run the carving loop from a stack holding
only the start and an empty visited map, then force-open the entrance's
north wall and the exit's south wall. -/
def maze.generate (m : maze) (rng : Rng) : maze × Rng :=
  let s := genLoop m.genFuel ⟨m, [m.start], [], rng⟩
  (((s.m.setOpening m.start north true).setOpening m.finish south true), s.rng)

/-- `newMaze` followed by `generate`, the composition the program runs
for every request. -/
def generatedMaze (height width : Int) (rng : Rng) (oppositeStart : Bool) :
    Option (maze × Rng) :=
  (newMaze height width rng oppositeStart).map fun mr => mr.1.generate mr.2

/-- The inner scan of `solve`'s loop: fixed order
`[north, south, east, west]`, requiring `err == nil`, an unvisited
target, and `m.at(pos).openings[dir]`. -/
def solveScan (m : maze) (visited : List position) (p : position) :
    List direction → Option position
  | [] => none
  | d :: ds =>
    if (d.translate p m).2 = true ∧ (d.translate p m).1 ∉ visited ∧
        (m.at p).openings d = true then
      some (d.translate p m).1
    else solveScan m visited p ds

/-- The fueled `for !stack.empty()` loop of `solve`.  `none` models
both fuel exhaustion (shown unreachable) and the
`panic("maze has no solution")` after the loop. -/
def solveLoop (m : maze) : Nat → List position → List position →
    Option (List position)
  | 0, _, _ => none
  | _ + 1, [], _ => none
  | fuel + 1, p :: rest, visited =>
    if m.finish ∈ visited then some (p :: rest).reverse
    else
      match solveScan m visited p [north, south, east, west] with
      | some np => solveLoop m fuel (np :: p :: rest) (np :: visited)
      | none => solveLoop m fuel rest visited

/-- `(m maze) solve() []position`: depth-first search from the start
over open walls; the start is marked visited before the loop.  The
result is in push order (bottom of stack first), as `stack.stack` is
returned in Go. -/
def maze.solve (m : maze) : Option (List position) :=
  solveLoop m m.genFuel [m.start] [m.start]

/-- A carved wall-pair between `p` and its neighbour in direction `d`:
the move stays in bounds and both sides of the wall are open. -/
def maze.pairOpen (m : maze) (p : position) (d : direction) : Bool :=
  let (np, ok) := d.translate p m
  ok && (m.at p).openings d && (m.at np).openings d.opposite

/-- All in-bounds positions of the grid, row-major. -/
def maze.allPositions (m : maze) : List position :=
  (List.range m.height.toNat).flatMap fun y =>
    (List.range m.width.toNat).map fun x => ⟨(x : Int), (y : Int)⟩

/-- The number of carved wall-pairs of the grid; each unordered pair of
adjacent cells is inspected once, through its south/east side. -/
def maze.carvedPairs (m : maze) : Nat :=
  (m.allPositions.map fun p =>
    ([south, east].filter fun d => m.pairOpen p d).length).sum

/-! ## Rasterizer

Pixels are modelled through the `At` function of Go's `image.RGBA`:
reads outside the bounds return the zero colour (no pixel is stored
there), and `draw.Draw` clips its destination rectangle to the
buffer's bounds.  A buffer is well-formed (`Buffer.wf`) when its `At`
function is zero outside the bounds, which holds for every buffer the
program ever allocates or draws into. -/

/-- 8-bit RGBA colour. -/
structure Color : Type where
  r : Nat
  g : Nat
  b : Nat
  a : Nat
deriving DecidableEq, Repr

def zeroColor : Color := ⟨0, 0, 0, 0⟩

/-- `image.White` converted to RGBA. -/
def whiteColor : Color := ⟨255, 255, 255, 255⟩

/-- `image.Black` converted to RGBA. -/
def blackColor : Color := ⟨0, 0, 0, 255⟩

/-- `red = image.NewUniform(color.RGBA{255, 0, 0, 255})`. -/
def redColor : Color := ⟨255, 0, 0, 255⟩

/-- The `draw.Over` composite of a uniform source over a destination
pixel, in the 16-bit space Go's `drawRGBA` uses. -/
def compositeOver (src dst : Color) : Color :=
  let m : Nat := 65535
  let sa := src.a * 257
  let ch := fun s8 d8 : Nat => (d8 * 257 * (m - sa) / m + s8 * 257) / 256
  ⟨ch src.r dst.r, ch src.g dst.g, ch src.b dst.b, ch src.a dst.a⟩

/-- A pixel buffer: `image.RGBA` with bounds `(0,0)-(width,height)`,
viewed through its `At` function. -/
structure Buffer : Type where
  width : Int
  height : Int
  pix : Int → Int → Color

/-- Out-of-bounds reads give the zero colour, as `image.RGBA.At` does. -/
def Buffer.wf (bu : Buffer) : Prop :=
  ∀ x y : Int, (x < 0 ∨ bu.width ≤ x ∨ y < 0 ∨ bu.height ≤ y) → bu.pix x y = zeroColor

/-- `image.NewRGBA(bounds)`: freshly allocated, all pixels zero. -/
def newRGBA (w h : Int) : Buffer := ⟨w, h, fun _ _ => zeroColor⟩

/-- `draw.Draw(img, image.Rect(x0, y0, x1, y1), uniform, pt, op)`:
write the uniform colour over the rectangle clipped to the bounds;
`overOp = true` is `draw.Over`, `false` is `draw.Src`. -/
def Buffer.drawOp (bu : Buffer) (x0 y0 x1 y1 : Int) (c : Color) (overOp : Bool) :
    Buffer :=
  { bu with pix := fun x y =>
      if x0 ≤ x ∧ x < x1 ∧ y0 ≤ y ∧ y < y1 ∧
          0 ≤ x ∧ x < bu.width ∧ 0 ≤ y ∧ y < bu.height then
        (if overOp then compositeOver c (bu.pix x y) else c)
      else bu.pix x y }

def border : Int := 40
def cellWidth : Int := 12
def halfCellWidth : Int := cellWidth / 2
def minImageWidth : Int := cellWidth * 4 + border * 2

/-- `fill(img, y0, y1, x0, x1, color)`: the body ignores the rectangle
arguments and draws the uniform colour over `img.Bounds()` with
`draw.Src`, exactly as the source does. -/
def fill (img : Buffer) (_y0 _y1 _x0 _x1 : Int) (c : Color) : Buffer :=
  img.drawOp 0 0 img.width img.height c false

/-- `hLine(img, x1, y, x2, col)`. -/
def hLine (img : Buffer) (x1 y x2 : Int) (c : Color) : Buffer :=
  img.drawOp x1 y (x2 + 1) (y + 1) c true

/-- `vLine(img, x, y1, y2, col)`. -/
def vLine (img : Buffer) (x y1 y2 : Int) (c : Color) : Buffer :=
  img.drawOp x y1 (x + 1) (y2 + 1) c true

/-- `(m *maze) drawCell(img, x, y, c)`: closed walls become black
segments, in the source's order north, south, west, east. -/
def maze.drawCell (_m : maze) (img : Buffer) (x y : Int) (c : cell) : Buffer :=
  let i1 := if c.openings north = false then
      hLine img (x * cellWidth + border) (y * cellWidth + border)
        (x * cellWidth + border + cellWidth) blackColor
    else img
  let i2 := if c.openings south = false then
      hLine i1 (x * cellWidth + border) (y * cellWidth + border + cellWidth)
        (x * cellWidth + border + cellWidth) blackColor
    else i1
  let i3 := if c.openings west = false then
      vLine i2 (x * cellWidth + border) (y * cellWidth + border)
        (y * cellWidth + border + cellWidth) blackColor
    else i2
  if c.openings east = false then
    vLine i3 (x * cellWidth + border + cellWidth) (y * cellWidth + border)
      (y * cellWidth + border + cellWidth) blackColor
  else i3

/-- `(m *maze) draw() *image.RGBA`: compute the output bounds, reuse
the previous frame buffer only when its bounds coincide, clear to
white, then draw every cell row-major. -/
def maze.draw (m : maze) (fb : Option Buffer) : Buffer :=
  let w0 := m.width * cellWidth + border * 2
  let width := if w0 < minImageWidth then minImageWidth else w0
  let bh := m.height * cellWidth + border * 2
  let buf0 := match fb with
    | none => newRGBA width bh
    | some b => if b.width = width ∧ b.height = bh then b else newRGBA width bh
  let buf1 := fill buf0 0 bh 0 width whiteColor
  (List.range m.height.toNat).foldl (fun acc y =>
    (List.range m.width.toNat).foldl (fun acc2 x =>
      m.drawCell acc2 (x : Int) (y : Int) (m.at ⟨(x : Int), (y : Int)⟩)) acc) buf1

/-- One segment of `drawPath`'s loop body: the two `if`s of the source,
endpoints normalized before drawing. -/
def maze.drawSeg (_m : maze) (img : Buffer) (prev pos : position) : Buffer :=
  let i1 := if pos.x = prev.x then
      let fy := if prev.y > pos.y then pos.y else prev.y
      let ly := if prev.y > pos.y then prev.y else pos.y
      vLine img (prev.x * cellWidth + border + halfCellWidth)
        (fy * cellWidth + border + halfCellWidth)
        (ly * cellWidth + border + halfCellWidth) redColor
    else img
  if pos.y = prev.y then
    let fx := if prev.x > pos.x then pos.x else prev.x
    let lx := if prev.x > pos.x then prev.x else pos.x
    hLine i1 (fx * cellWidth + border + halfCellWidth)
      (prev.y * cellWidth + border + halfCellWidth)
      (lx * cellWidth + border + halfCellWidth) redColor
  else i1

/-- `(m *maze) drawPath(img, path)`: overlay the solution segments.
`path[0]` is taken as the first `prev`; the `[]` branch is dead in the
program (the solver's stack is never empty). -/
def maze.drawPath (m : maze) (img : Buffer) (path : List position) : Buffer :=
  match path with
  | [] => img
  | p0 :: rest => (rest.foldl (fun st pos => (m.drawSeg st.1 st.2 pos, pos)) (img, p0)).1

/-- Outcome of one `generateCallback` run: request rejected by
validation, a `panic`, or a generated maze with its optional solution
path. -/
inductive CallbackResult : Type
  | rejected
  | panicked
  | ok (m : maze) (path : Option (List position))

/-- `generateCallback()`.  The DOM reads of `getArguments` become
parameters (`errIn` models `err != nil`); `time.Now().UnixNano()`
becomes the parameter `now`; `rand.NewSource` becomes the ambient
seed-to-stream map `src`; the `frameBuffer` global becomes the `fb`
argument and the second component of the result.  The `label` text
only feeds the exported string and is not modelled further. -/
def generateCallbackModel (src : Int → Nat → Nat) (height width : Int)
    (solution _label oppositeStart : Bool) (seed : Int) (errIn : Bool)
    (now : Int) (fb : Option Buffer) : CallbackResult × Option Buffer :=
  if errIn = true ∨ height < 2 ∨ width < 2 ∨
      height > maxDimension ∨ width > maxDimension then
    (CallbackResult.rejected, fb)
  else
    let seed1 := if seed = 0 then now else seed
    match newMaze height width ⟨src seed1, 0⟩ oppositeStart with
    | none => (CallbackResult.panicked, fb)
    | some (m0, rng1) =>
      let m := (m0.generate rng1).1
      let img := m.draw fb
      if solution = true then
        match m.solve with
        | none => (CallbackResult.panicked, some img)
        | some path => (CallbackResult.ok m (some path), some (m.drawPath img path))
      else (CallbackResult.ok m none, some img)

/-- The grid adjacency explored by `generate`'s scan: `q` is the result
of a successful `translate` from `p`. -/
def gridAdj (m : maze) (p q : position) : Prop :=
  ∃ d : direction, d.translate p m = (q, true)

/-- One move of the solver's walk: a successful `translate` through a
wall whose opening flag is set at the source cell, the test of
`solve`'s scan. -/
def openMove (m : maze) (p q : position) : Prop :=
  ∃ d : direction, d.translate p m = (q, true) ∧ (m.at p).openings d = true

/-- `genStep` guarded as the loop guard is: a state with an empty stack
is final. -/
def genStepG (s : GState) : GState := if s.stk = [] then s else genStep s

/-- The loop state after `k` iterations of `generate`'s loop. -/
def genIter (s : GState) (k : Nat) : GState := genStepG^[k] s

/-- The initial loop state of `generate`: only the start on the stack,
an empty visited map. -/
def genInit (m : maze) (rng : Rng) : GState := ⟨m, [m.start], [], rng⟩

/-- Loop measure of both `while` loops: twice the number of not yet
visited cells plus the stack length; it strictly decreases at every
iteration. -/
def loopMeasure (total : Nat) (visited stk : List position) : Nat :=
  2 * (total - visited.length) + stk.length

/-- The invariant of `generate`'s loop, relative to the scalar fields
`hgt`, `wdt`, `st`, `fin` of the maze under construction (which the
loop never changes). -/
structure GInv (hgt wdt : Int) (st fin : position) (s : GState) : Prop where
  hm : s.m.height = hgt
  wm : s.m.width = wdt
  stm : s.m.start = st
  finm : s.m.finish = fin
  clen : s.m.cells.length = (hgt * wdt).toNat
  stkG : ∀ p ∈ s.stk, s.m.inGrid p
  visG : ∀ p ∈ s.visited, s.m.inGrid p
  nd : s.visited.Nodup
  closure : ∀ c ∈ s.visited, c ∈ s.stk ∨ ∀ q, gridAdj s.m c q → q ∈ s.visited
  bottom : s.stk = [] ∨ ∃ pre, s.stk = pre ++ [st]
  startv : st ∈ s.visited ∨ st ∈ s.stk
  sym : ∀ p d q, s.m.inGrid p → d.translate p s.m = (q, true) →
    (s.m.at p).openings d = (s.m.at q).openings d.opposite
  bnd : ∀ p d, s.m.inGrid p → (d.translate p s.m).2 = false →
    (s.m.at p).openings d = false
  reach : ∀ c, (c ∈ s.visited ∨ c ∈ s.stk) →
    Relation.ReflTransGen (openMove s.m) st c

/-- The invariant of `solve`'s loop. -/
structure SInv (m : maze) (stk visited : List position) : Prop where
  stkG : ∀ p ∈ stk, m.inGrid p
  visG : ∀ p ∈ visited, m.inGrid p
  nd : visited.Nodup
  stkv : ∀ p ∈ stk, p ∈ visited
  chain : List.Chain' (fun a b => openMove m b a) stk
  bottom : stk = [] ∨ ∃ pre, stk = pre ++ [m.start]
  startv : m.start ∈ visited
  closure : ∀ c ∈ visited, c ∈ stk ∨ ∀ q, openMove m c q → q ∈ visited
  finv : m.finish ∈ visited → stk.head? = some m.finish

/-! ## Basic lemmas about the grid model -/

@[simp]
theorem position.x_mk (a b : Int) : (⟨a, b⟩ : position).x = a := rfl

@[simp]
theorem position.y_mk (a b : Int) : (⟨a, b⟩ : position).y = b := rfl

theorem cell.openings_setOpening (c : cell) (d : direction) (b : Bool)
    (e : direction) :
    (c.setOpening d b).openings e = if e = d then b else c.openings e := by
  cases d <;> cases e <;> rfl

theorem direction.opposite_opposite (d : direction) : d.opposite.opposite = d := by
  cases d <;> rfl

theorem translate_eq_some (d : direction) (p q : position) (m : maze)
    (h : d.translate p m = (q, true)) : q = d.moveOne p := by
  cases d <;> simp only [direction.translate, direction.moveOne] at * <;>
    split at h <;> simp_all

theorem translate_valid_iff (d : direction) (p : position) (m : maze) (q : position) :
    d.translate p m = (q, true) ↔
      q = d.moveOne p ∧
      (match d with
       | north => p.y > 0
       | south => p.y < m.height - 1
       | west => p.x > 0
       | east => p.x < m.width - 1) := by
  cases p with
  | mk px py =>
    cases q with
    | mk qx qy =>
      cases d <;>
        simp only [direction.translate, direction.moveOne] <;>
        split <;>
        simp_all [Prod.ext_iff, position.mk.injEq] <;>
        omega

theorem translate_ne (d : direction) (p q : position) (m : maze)
    (h : d.translate p m = (q, true)) : q ≠ p := by
  rw [translate_valid_iff] at h
  obtain ⟨rfl, -⟩ := h
  cases p with
  | mk px py => cases d <;> simp [direction.moveOne, position.mk.injEq] <;> omega

theorem translate_inGrid (d : direction) (p q : position) (m : maze)
    (hp : m.inGrid p) (h : d.translate p m = (q, true)) : m.inGrid q := by
  obtain ⟨h1, h2, h3, h4⟩ := hp
  rw [translate_valid_iff] at h
  obtain ⟨rfl, hc⟩ := h
  cases d <;> simp_all [direction.moveOne, maze.inGrid] <;> omega

theorem translate_reverse (d : direction) (p q : position) (m : maze)
    (hp : m.inGrid p) (h : d.translate p m = (q, true)) :
    d.opposite.translate q m = (p, true) := by
  obtain ⟨h1, h2, h3, h4⟩ := hp
  rw [translate_valid_iff] at h
  obtain ⟨rfl, hc⟩ := h
  rw [translate_valid_iff]
  cases p with
  | mk px py =>
    cases d <;>
      simp_all [direction.moveOne, direction.opposite, position.mk.injEq] <;>
      omega

theorem moveOne_inj_dir (d e : direction) (p : position)
    (h : d.moveOne p = e.moveOne p) : d = e := by
  cases p with
  | mk px py =>
    cases d <;> cases e <;>
      simp_all [direction.moveOne, position.mk.injEq] <;> omega

theorem translate_setOpening (d : direction) (p : position) (m : maze)
    (q : position) (e : direction) (b : Bool) :
    d.translate p (m.setOpening q e b) = d.translate p m := by
  cases d <;> rfl

theorem gridAdj_setOpening (m : maze) (q : position) (e : direction) (b : Bool)
    (a c : position) : gridAdj (m.setOpening q e b) a c ↔ gridAdj m a c := by
  unfold gridAdj
  constructor <;> rintro ⟨d, hd⟩ <;> exact ⟨d, by rwa [translate_setOpening] at *⟩

theorem inGrid_setOpening (m : maze) (q : position) (e : direction) (b : Bool)
    (p : position) : (m.setOpening q e b).inGrid p ↔ m.inGrid p := Iff.rfl

theorem idx_lt_length (m : maze) (p : position) (hp : m.inGrid p)
    (hlen : m.cells.length = (m.height * m.width).toNat) :
    m.idx p < m.cells.length := by
  obtain ⟨h1, h2, h3, h4⟩ := hp
  rw [hlen]
  unfold maze.idx
  have hw : 0 < m.width := by omega
  have hyx : p.y * m.width + p.x < m.height * m.width := by nlinarith
  have h0 : 0 ≤ p.y * m.width + p.x := by positivity
  omega

theorem idx_inj (m : maze) (p q : position) (hp : m.inGrid p) (hq : m.inGrid q)
    (h : m.idx p = m.idx q) : p = q := by
  obtain ⟨hp1, hp2, hp3, hp4⟩ := hp
  obtain ⟨hq1, hq2, hq3, hq4⟩ := hq
  unfold maze.idx at h
  have hw : 0 < m.width := by omega
  have e1 : (0 : Int) ≤ p.y * m.width + p.x := by positivity
  have e2 : (0 : Int) ≤ q.y * m.width + q.x := by positivity
  have h' : p.y * m.width + p.x = q.y * m.width + q.x := by omega
  have hy : p.y = q.y := by
    rcases lt_trichotomy p.y q.y with hlt | heq | hgt
    · exfalso
      have : p.y + 1 ≤ q.y := hlt
      nlinarith
    · exact heq
    · exfalso
      have : q.y + 1 ≤ p.y := hgt
      nlinarith
  have hx : p.x = q.x := by
    rw [hy] at h'
    omega
  cases p; cases q; simp_all

theorem length_setOpening (m : maze) (p : position) (d : direction) (b : Bool) :
    (m.setOpening p d b).cells.length = m.cells.length := by
  simp [maze.setOpening]

theorem idx_setOpening (m : maze) (q : position) (e : direction) (b : Bool)
    (p : position) : (m.setOpening q e b).idx p = m.idx p := rfl

theorem at_setOpening_self (m : maze) (p : position) (d : direction) (b : Bool)
    (hp : m.inGrid p) (hlen : m.cells.length = (m.height * m.width).toNat) :
    (m.setOpening p d b).at p = (m.at p).setOpening d b := by
  have hi := idx_lt_length m p hp hlen
  simp only [maze.idx] at hi
  simp only [maze.at, maze.setOpening, maze.idx, List.getD]
  rw [List.get?_set_eq_of_lt _ hi]
  rfl

theorem at_setOpening_ne (m : maze) (p q : position) (d : direction) (b : Bool)
    (hp : m.inGrid p) (hq : m.inGrid q) (hne : q ≠ p) :
    (m.setOpening p d b).at q = m.at q := by
  have hii : m.idx p ≠ m.idx q := by
    intro h
    exact hne (idx_inj m q p hq hp h.symm)
  simp only [maze.idx] at hii
  simp only [maze.at, maze.setOpening, maze.idx, List.getD]
  rw [List.get?_set_ne _ _ hii]

theorem cells_setOpening (m : maze) (r : position) (e : direction) (b : Bool) :
    (m.setOpening r e b).cells = m.cells.set (m.idx r) ((m.at r).setOpening e b) := rfl

theorem height_setOpening (m : maze) (r : position) (e : direction) (b : Bool) :
    (m.setOpening r e b).height = m.height := rfl

theorem width_setOpening (m : maze) (r : position) (e : direction) (b : Bool) :
    (m.setOpening r e b).width = m.width := rfl

theorem start_setOpening (m : maze) (r : position) (e : direction) (b : Bool) :
    (m.setOpening r e b).start = m.start := rfl

theorem finish_setOpening (m : maze) (r : position) (e : direction) (b : Bool) :
    (m.setOpening r e b).finish = m.finish := rfl

theorem carve_eq (m : maze) (p : position) (d : direction) (np : position)
    (h : d.translate p m = (np, true)) :
    m.carve p d = (m.setOpening p d true).setOpening np d.opposite true := by
  simp only [maze.carve, translate_setOpening, h]
  simp

theorem openings_mono_setOpening_true (m : maze) (r : position) (e : direction)
    (q : position) (d' : direction) (h : (m.at q).openings d' = true) :
    ((m.setOpening r e true).at q).openings d' = true := by
  simp only [maze.at, List.getD, cells_setOpening, idx_setOpening] at h ⊢
  by_cases hi : m.idx r = m.idx q
  · rw [← hi, List.get?_set_eq]
    rw [← hi] at h
    cases hc : m.cells.get? (m.idx r) with
    | none =>
      rw [hc] at h
      simpa using h
    | some c =>
      rw [hc] at h
      simp only [Option.getD_some] at h
      show (c.setOpening e true).openings d' = true
      rw [cell.openings_setOpening]
      split
      · rfl
      · exact h
  · rw [List.get?_set_ne _ _ hi]
    exact h

theorem openMove_mono_setOpening_true (m : maze) (r : position) (e : direction)
    (a c : position) (h : openMove m a c) :
    openMove (m.setOpening r e true) a c := by
  obtain ⟨d, hd, ho⟩ := h
  exact ⟨d, by rwa [translate_setOpening], openings_mono_setOpening_true m r e a d ho⟩

theorem reach_mono_setOpening_true (m : maze) (r : position) (e : direction)
    (a c : position) (h : Relation.ReflTransGen (openMove m) a c) :
    Relation.ReflTransGen (openMove (m.setOpening r e true)) a c :=
  Relation.ReflTransGen.mono (openMove_mono_setOpening_true m r e) h

theorem scanDirs_some (m : maze) (visited : List position) (p : position)
    (ds : List direction) (d : direction) (np : position)
    (h : scanDirs m visited p ds = some (d, np)) :
    d.translate p m = (np, true) ∧ np ∉ visited := by
  induction ds with
  | nil => simp [scanDirs] at h
  | cons d0 ds ih =>
    rw [scanDirs] at h
    rcases he : d0.translate p m with ⟨np0, ok0⟩
    simp only [he] at h
    by_cases hcond : ok0 = true ∧ np0 ∉ visited
    · rw [if_pos hcond] at h
      obtain ⟨rfl, rfl⟩ : d0 = d ∧ np0 = np := by simpa using h
      exact ⟨by rw [he, hcond.1], hcond.2⟩
    · rw [if_neg hcond] at h
      exact ih h

theorem scanDirs_none (m : maze) (visited : List position) (p : position)
    (ds : List direction) (h : scanDirs m visited p ds = none) :
    ∀ d ∈ ds, ∀ q, d.translate p m = (q, true) → q ∈ visited := by
  induction ds with
  | nil => simp
  | cons d0 ds ih =>
    rw [scanDirs] at h
    rcases he : d0.translate p m with ⟨np0, ok0⟩
    simp only [he] at h
    by_cases hcond : ok0 = true ∧ np0 ∉ visited
    · rw [if_pos hcond] at h
      simp at h
    · rw [if_neg hcond] at h
      intro d hd q hq
      rcases List.mem_cons.mp hd with rfl | hmem
      · rw [he] at hq
        obtain ⟨rfl, rfl⟩ : np0 = q ∧ ok0 = true := by simpa [Prod.ext_iff] using hq
        by_contra hqv
        exact hcond ⟨rfl, hqv⟩
      · exact ih h d hmem q hq

theorem permutations_complete :
    ∀ j, j < 24 → ∀ d : direction, d ∈ permutations.getD j [] := by decide

theorem gridAdj_symm (m : maze) (p q : position) (hp : m.inGrid p)
    (h : gridAdj m p q) : gridAdj m q p := by
  obtain ⟨d, hd⟩ := h
  exact ⟨d.opposite, translate_reverse d p q m hp hd⟩

theorem gridAdj_ne (m : maze) (p q : position) (h : gridAdj m p q) : q ≠ p := by
  obtain ⟨d, hd⟩ := h
  exact translate_ne d p q m hd

theorem gridAdj_inGrid (m : maze) (p q : position) (hp : m.inGrid p)
    (h : gridAdj m p q) : m.inGrid q := by
  obtain ⟨d, hd⟩ := h
  exact translate_inGrid d p q m hp hd

theorem neighbor_exists (m : maze) (p : position) (hh : 2 ≤ m.height)
    (hp : m.inGrid p) : ∃ q, gridAdj m p q := by
  obtain ⟨h1, h2, h3, h4⟩ := hp
  by_cases hy : p.y > 0
  · exact ⟨⟨p.x, p.y - 1⟩, north, by simp [direction.translate, hy]⟩
  · refine ⟨⟨p.x, p.y + 1⟩, south, ?_⟩
    have : p.y < m.height - 1 := by omega
    simp [direction.translate, this]

theorem grid_reach (m : maze) :
    ∀ n (p q : position), m.inGrid p → m.inGrid q →
      ((p.x - q.x).natAbs + (p.y - q.y).natAbs) = n →
      Relation.ReflTransGen (gridAdj m) p q := by
  intro n
  induction n using Nat.strong_induction_on with
  | _ n ih =>
    rintro ⟨px, py⟩ ⟨qx, qy⟩ hp hq hd
    obtain ⟨hp1, hp2, hp3, hp4⟩ := hp
    obtain ⟨hq1, hq2, hq3, hq4⟩ := hq
    simp only [position.x_mk, position.y_mk] at hp1 hp2 hp3 hp4 hq1 hq2 hq3 hq4 hd
    by_cases hpq : px = qx ∧ py = qy
    · obtain ⟨rfl, rfl⟩ := hpq
      exact Relation.ReflTransGen.refl
    · rcases lt_trichotomy px qx with hx | rfl | hx
      · have hq' : m.inGrid ⟨qx - 1, qy⟩ :=
          ⟨by simp only [position.x_mk]; omega, by simp only [position.x_mk]; omega,
           hq3, hq4⟩
        have hstep : gridAdj m (⟨qx - 1, qy⟩ : position) ⟨qx, qy⟩ := by
          refine ⟨east, ?_⟩
          rw [translate_valid_iff]
          constructor
          · simp only [direction.moveOne, position.x_mk, position.y_mk,
              position.mk.injEq, and_true, true_and]
            omega
          · show qx - 1 < m.width - 1
            omega
        have hlt : (px - (qx - 1)).natAbs + (py - qy).natAbs < n := by omega
        refine Relation.ReflTransGen.tail
          (ih ((px - (qx - 1)).natAbs + (py - qy).natAbs) hlt
            ⟨px, py⟩ ⟨qx - 1, qy⟩ ⟨hp1, hp2, hp3, hp4⟩ hq' rfl) hstep
      · rcases lt_trichotomy py qy with hy | rfl | hy
        · have hq' : m.inGrid ⟨px, qy - 1⟩ :=
            ⟨hp1, hp2, by simp only [position.y_mk]; omega,
             by simp only [position.y_mk]; omega⟩
          have hstep : gridAdj m (⟨px, qy - 1⟩ : position) ⟨px, qy⟩ := by
            refine ⟨south, ?_⟩
            rw [translate_valid_iff]
            constructor
            · simp only [direction.moveOne, position.x_mk, position.y_mk,
                position.mk.injEq, and_true, true_and]
              omega
            · show qy - 1 < m.height - 1
              omega
          have hlt : (px - px).natAbs + (py - (qy - 1)).natAbs < n := by omega
          refine Relation.ReflTransGen.tail
            (ih ((px - px).natAbs + (py - (qy - 1)).natAbs) hlt
              ⟨px, py⟩ ⟨px, qy - 1⟩ ⟨hp1, hp2, hp3, hp4⟩ hq' rfl) hstep
        · exact absurd ⟨rfl, rfl⟩ hpq
        · have hq' : m.inGrid ⟨px, qy + 1⟩ :=
            ⟨hp1, hp2, by simp only [position.y_mk]; omega,
             by simp only [position.y_mk]; omega⟩
          have hstep : gridAdj m (⟨px, qy + 1⟩ : position) ⟨px, qy⟩ := by
            refine ⟨north, ?_⟩
            rw [translate_valid_iff]
            constructor
            · simp only [direction.moveOne, position.x_mk, position.y_mk,
                position.mk.injEq, and_true, true_and]
              omega
            · show (qy + 1 : Int) > 0
              omega
          have hlt : (px - px).natAbs + (py - (qy + 1)).natAbs < n := by omega
          refine Relation.ReflTransGen.tail
            (ih ((px - px).natAbs + (py - (qy + 1)).natAbs) hlt
              ⟨px, py⟩ ⟨px, qy + 1⟩ ⟨hp1, hp2, hp3, hp4⟩ hq' rfl) hstep
      · have hq' : m.inGrid ⟨qx + 1, qy⟩ :=
          ⟨by simp only [position.x_mk]; omega, by simp only [position.x_mk]; omega,
           hq3, hq4⟩
        have hstep : gridAdj m (⟨qx + 1, qy⟩ : position) ⟨qx, qy⟩ := by
          refine ⟨west, ?_⟩
          rw [translate_valid_iff]
          constructor
          · simp only [direction.moveOne, position.x_mk, position.y_mk,
              position.mk.injEq, and_true, true_and]
            omega
          · show (qx + 1 : Int) > 0
            omega
        have hlt : (px - (qx + 1)).natAbs + (py - qy).natAbs < n := by omega
        refine Relation.ReflTransGen.tail
          (ih ((px - (qx + 1)).natAbs + (py - qy).natAbs) hlt
            ⟨px, py⟩ ⟨qx + 1, qy⟩ ⟨hp1, hp2, hp3, hp4⟩ hq' rfl) hstep

/-! ## Claim C1: the generator can carve a cycle through the entrance

`generate` never marks the start cell visited (`solve` does), so a
second wall-pair can be carved into the entrance.  On a 2×2 grid in
opposite-corner mode, with direction draws scanning east first, then
south first, then west first, then north first, all four interior
wall-pairs open: 4 carved pairs instead of `2*2 - 1 = 3`, a cycle. -/

/-- C1: counter-evaluation for the code_bug.  The spanning-tree claim
fails on the code: the run below carves 4 wall-pairs on a 2×2 grid
(forming a cycle through the entrance), not `height*width - 1 = 3`. -/
theorem C1_generate_carves_a_cycle :
    (generatedMaze 2 2 ⟨fun i => [0, 0, 12, 6, 18, 0].getD i 0, 0⟩ true).map
      (fun mr => mr.1.carvedPairs) = some 4 ∧ 2 * 2 - 1 = 3 :=
  ⟨by decide, rfl⟩

/-! ## Claim C6: the constructor checks only the lower bounds -/

/-- C6 counterexample: `newMaze(201, 5, ...)` succeeds although
`201 > maxDimension`; the upper bound is not checked by the
constructor. -/
theorem C6_counterexample_newMaze_accepts_201 :
    (newMaze 201 5 ⟨fun _ => 0, 0⟩ true).isSome = true ∧ maxDimension < 201 :=
  ⟨by decide, by decide⟩

/-- C6 (amended): `newMaze` fails exactly when `width < 2` or
`height < 2` (the `rng == nil` disjunct cannot arise in the embedding);
the `maxDimension` bounds are enforced by `generateCallback`, not by
the constructor. -/
theorem C6_amended_newMaze_guard (height width : Int) (rng : Rng)
    (oppositeStart : Bool) :
    newMaze height width rng oppositeStart = none ↔ width < 2 ∨ height < 2 := by
  unfold newMaze
  split
  · simp_all
  · simp_all

/-! ## Claim C7: translate reports invalid exactly at the boundary -/

/-- C7: for every in-bounds position and direction, `translate` reports
invalid (valid = false, position unchanged) exactly when the one-cell
move would leave the grid, and otherwise returns the in-bounds position
displaced by exactly one unit. -/
theorem C7_translate_boundary (m : maze) (p : position) (d : direction)
    (hp : m.inGrid p) :
    ((d.translate p m).2 = false ↔ ¬ m.inGrid (d.moveOne p)) ∧
    ((d.translate p m).2 = true →
      (d.translate p m).1 = d.moveOne p ∧ m.inGrid (d.moveOne p)) ∧
    ((d.translate p m).2 = false → (d.translate p m).1 = p) := by
  obtain ⟨h1, h2, h3, h4⟩ := hp
  cases d <;>
    simp only [direction.translate, direction.moveOne, maze.inGrid] <;>
    split <;> simp_all <;> omega

/-- C7 witness: the theorem applied at a concrete 2×2 maze, position
(0,0) and direction north (an invalid move). -/
theorem C7_translate_boundary_witness :
    ((north.translate ⟨0, 0⟩ ⟨⟨0, 0⟩, ⟨1, 1⟩, 2, 2, []⟩).2 = false ↔
      ¬ (⟨⟨0, 0⟩, ⟨1, 1⟩, 2, 2, []⟩ : maze).inGrid (north.moveOne ⟨0, 0⟩)) ∧
    ((north.translate ⟨0, 0⟩ ⟨⟨0, 0⟩, ⟨1, 1⟩, 2, 2, []⟩).2 = true →
      (north.translate ⟨0, 0⟩ ⟨⟨0, 0⟩, ⟨1, 1⟩, 2, 2, []⟩).1 = north.moveOne ⟨0, 0⟩ ∧
      (⟨⟨0, 0⟩, ⟨1, 1⟩, 2, 2, []⟩ : maze).inGrid (north.moveOne ⟨0, 0⟩)) ∧
    ((north.translate ⟨0, 0⟩ ⟨⟨0, 0⟩, ⟨1, 1⟩, 2, 2, []⟩).2 = false →
      (north.translate ⟨0, 0⟩ ⟨⟨0, 0⟩, ⟨1, 1⟩, 2, 2, []⟩).1 = ⟨0, 0⟩) :=
  C7_translate_boundary ⟨⟨0, 0⟩, ⟨1, 1⟩, 2, 2, []⟩ ⟨0, 0⟩ north (by decide)

/-! ## Claim C5: out-of-range dimensions are rejected untouched -/

/-- C5: whenever height or width lies outside `[2, maxDimension]`, the
request is rejected: no maze is generated and the frame buffer is
returned unchanged. -/
theorem C5_invalid_dimensions_rejected (src : Int → Nat → Nat)
    (height width : Int) (solution label oppositeStart : Bool) (seed : Int)
    (errIn : Bool) (now : Int) (fb : Option Buffer)
    (hbad : height < 2 ∨ height > maxDimension ∨ width < 2 ∨ width > maxDimension) :
    generateCallbackModel src height width solution label oppositeStart seed
        errIn now fb =
      (CallbackResult.rejected, fb) := by
  unfold generateCallbackModel
  have hcond : errIn = true ∨ height < 2 ∨ width < 2 ∨
      height > maxDimension ∨ width > maxDimension := by tauto
  simp [hcond]

/-- C5 witness: the two boundary requests of the claim,
`generate(1, 5, ...)` and `generate(5, 201, ...)`, are both rejected
with the buffer untouched. -/
theorem C5_invalid_dimensions_rejected_witness :
    generateCallbackModel (fun _ _ => 0) 1 5 false false false 7 false 0 none =
      (CallbackResult.rejected, none) ∧
    generateCallbackModel (fun _ _ => 0) 5 201 true false true 7 false 0 none =
      (CallbackResult.rejected, none) :=
  ⟨C5_invalid_dimensions_rejected (fun _ _ => 0) 1 5 false false false 7 false 0
      none (Or.inl (by decide)),
   C5_invalid_dimensions_rejected (fun _ _ => 0) 5 201 true false true 7 false 0
      none (Or.inr (Or.inr (Or.inr (by decide))))⟩

/-! ## Claim C4: generation is deterministic for non-zero seeds -/

/-- C4: two runs of `generateCallback` with identical arguments and a
non-zero seed produce identical results — in particular bit-identical
grids (start, finish and cell opening flags are part of `maze`
equality) and identical solver paths — whatever the ambient time is
(`time.Now` is only read when the seed is 0). -/
theorem C4_generation_deterministic (src : Int → Nat → Nat)
    (height width : Int) (solution label oppositeStart : Bool) (seed : Int)
    (t1 t2 : Int) (fb : Option Buffer) (hs : seed ≠ 0) :
    generateCallbackModel src height width solution label oppositeStart seed
        false t1 fb =
      generateCallbackModel src height width solution label oppositeStart seed
        false t2 fb := by
  unfold generateCallbackModel
  simp [hs]

/-- C4 witness: the theorem applied at seed 1 with two different
times. -/
theorem C4_generation_deterministic_witness :
    generateCallbackModel (fun _ _ => 0) 3 3 true false true 1 false 0 none =
      generateCallbackModel (fun _ _ => 0) 3 3 true false true 1 false 5 none :=
  C4_generation_deterministic (fun _ _ => 0) 3 3 true false true 1 0 5 none
    (by decide)

/-! ## Claim C9: rendering depends only on the grid -/

theorem fill_of_wf (bu : Buffer) (hw : bu.wf) (y0 y1 x0 x1 : Int) (c : Color) :
    fill bu y0 y1 x0 x1 c =
      ⟨bu.width, bu.height, fun x y =>
        if 0 ≤ x ∧ x < bu.width ∧ 0 ≤ y ∧ y < bu.height then c else zeroColor⟩ := by
  cases bu with
  | mk w h pix =>
    simp only [fill, Buffer.drawOp, Buffer.mk.injEq, true_and]
    funext x y
    by_cases hx : 0 ≤ x ∧ x < w ∧ 0 ≤ y ∧ y < h
    · rw [if_pos ⟨hx.1, hx.2.1, hx.2.2.1, hx.2.2.2, hx.1, hx.2.1, hx.2.2.1,
        hx.2.2.2⟩, if_pos hx]
      simp
    · rw [if_neg (by tauto), if_neg hx]
      exact hw x y (by simp only [Buffer.wf] at *; omega)

theorem newRGBA_wf (w h : Int) : (newRGBA w h).wf := by
  intro x y _
  rfl

theorem draw_indep (m : maze) (fb : Option Buffer) (hw : ∀ b ∈ fb, b.wf) :
    m.draw fb = m.draw none := by
  unfold maze.draw
  cases fb with
  | none => rfl
  | some b =>
    simp only [Option.mem_def, Option.some.injEq, forall_eq'] at hw
    dsimp only
    by_cases hd : b.width = (if m.width * cellWidth + border * 2 < minImageWidth then
        minImageWidth else m.width * cellWidth + border * 2) ∧
        b.height = m.height * cellWidth + border * 2
    · rw [if_pos hd]
      rw [fill_of_wf b hw, fill_of_wf (newRGBA _ _) (newRGBA_wf _ _)]
      rw [hd.1, hd.2]
      rfl
    · rw [if_neg hd]

/-- C9: the pixel buffer `draw` produces depends only on the grid being
rendered, never on the pixels of the previous buffer — rendering the
same grid twice (into any previous well-formed buffers, of equal or
different dimensions) yields identical pixel output. -/
theorem C9_render_depends_only_on_grid (m : maze) (fb fb' : Option Buffer)
    (h1 : ∀ b ∈ fb, b.wf) (h2 : ∀ b ∈ fb', b.wf) :
    m.draw fb = m.draw fb' :=
  (draw_indep m fb h1).trans (draw_indep m fb' h2).symm

/-- C9 witness: drawing a concrete 2×2 maze into no previous buffer and
into a fresh 128×64 buffer gives the same pixels. -/
theorem C9_render_depends_only_on_grid_witness :
    (⟨⟨0, 0⟩, ⟨1, 1⟩, 2, 2, []⟩ : maze).draw none =
      (⟨⟨0, 0⟩, ⟨1, 1⟩, 2, 2, []⟩ : maze).draw (some (newRGBA 128 64)) :=
  C9_render_depends_only_on_grid _ none (some (newRGBA 128 64)) (by simp)
    (by
      intro b hb
      simp only [Option.mem_def, Option.some.injEq] at hb
      exact hb ▸ newRGBA_wf 128 64)

theorem genStep_empty (s : GState) (h : s.stk = []) : genStep s = s := by
  unfold genStep
  rw [h]

theorem genStep_found (s : GState) (p : position) (rest : List position)
    (d : direction) (np : position) (h : s.stk = p :: rest)
    (hscan : scanDirs s.m s.visited p
      (permutations.getD ((s.rng.intn permutations.length).1) []) = some (d, np)) :
    genStep s = ⟨s.m.carve p d, np :: p :: rest, np :: s.visited,
      (s.rng.intn permutations.length).2⟩ := by
  unfold genStep
  rw [h]
  simp only [hscan]

theorem genStep_pop (s : GState) (p : position) (rest : List position)
    (h : s.stk = p :: rest)
    (hscan : scanDirs s.m s.visited p
      (permutations.getD ((s.rng.intn permutations.length).1) []) = none) :
    genStep s = ⟨s.m, rest, s.visited, (s.rng.intn permutations.length).2⟩ := by
  unfold genStep
  rw [h]
  simp only [hscan]

theorem opposite_inj (d e : direction) (h : d.opposite = e.opposite) : d = e := by
  cases d <;> cases e <;> simp_all [direction.opposite]

theorem at_carve (m : maze) (p np : position) (d : direction)
    (hval : d.translate p m = (np, true)) (hp : m.inGrid p)
    (hlen : m.cells.length = (m.height * m.width).toNat) (q : position)
    (hq : m.inGrid q) :
    (m.carve p d).at q =
      if q = p then (m.at p).setOpening d true
      else if q = np then (m.at np).setOpening d.opposite true
      else m.at q := by
  have hnp : m.inGrid np := translate_inGrid d p np m hp hval
  have hne : np ≠ p := translate_ne d p np m hval
  have hlen1 : (m.setOpening p d true).cells.length =
      ((m.setOpening p d true).height * (m.setOpening p d true).width).toNat := by
    rw [length_setOpening, height_setOpening, width_setOpening]
    exact hlen
  rw [carve_eq m p d np hval]
  by_cases h1 : q = p
  · subst h1
    rw [if_pos rfl]
    rw [at_setOpening_ne (m.setOpening q d true) np q d.opposite true hnp hq
      (Ne.symm hne)]
    exact at_setOpening_self m q d true hq hlen
  · rw [if_neg h1]
    by_cases h2 : q = np
    · subst h2
      rw [if_pos rfl]
      rw [at_setOpening_self (m.setOpening p d true) q d.opposite true hnp hlen1]
      rw [at_setOpening_ne m p q d true hp hq h1]
    · rw [if_neg h2]
      rw [at_setOpening_ne (m.setOpening p d true) np q d.opposite true hnp hq h2]
      rw [at_setOpening_ne m p q d true hp hq h1]

theorem translate_carve (e : direction) (a : position) (m : maze) (p : position)
    (d : direction) (np : position) (hval : d.translate p m = (np, true)) :
    e.translate a (m.carve p d) = e.translate a m := by
  rw [carve_eq m p d np hval, translate_setOpening, translate_setOpening]

theorem sym_carve (m : maze) (p np : position) (d : direction)
    (hval : d.translate p m = (np, true)) (hp : m.inGrid p)
    (hlen : m.cells.length = (m.height * m.width).toNat)
    (hsym : ∀ a e b, m.inGrid a → e.translate a m = (b, true) →
      (m.at a).openings e = (m.at b).openings e.opposite) :
    ∀ a e b, m.inGrid a → e.translate a (m.carve p d) = (b, true) →
      ((m.carve p d).at a).openings e = ((m.carve p d).at b).openings e.opposite := by
  intro a e b ha hvb
  rw [translate_carve e a m p d np hval] at hvb
  have hb : m.inGrid b := translate_inGrid e a b m ha hvb
  have hnp : m.inGrid np := translate_inGrid d p np m hp hval
  have hnep : np ≠ p := translate_ne d p np m hval
  have hba : b ≠ a := translate_ne e a b m hvb
  have hmb : b = e.moveOne a := translate_eq_some e a b m hvb
  have hmnp : np = d.moveOne p := translate_eq_some d p np m hval
  have hrevnp : d.opposite.translate np m = (p, true) :=
    translate_reverse d p np m hp hval
  have hreva : e.opposite.translate b m = (a, true) :=
    translate_reverse e a b m ha hvb
  have hma : a = e.opposite.moveOne b := translate_eq_some e.opposite b a m hreva
  have hmp : p = d.opposite.moveOne np := translate_eq_some d.opposite np p m hrevnp
  rw [at_carve m p np d hval hp hlen a ha, at_carve m p np d hval hp hlen b hb]
  by_cases h1 : a = p
  · by_cases h2 : e = d
    · have hb' : b = np := by
        rw [hmb, hmnp, h1, h2]
      have hbp : b ≠ p := by rw [hb']; exact hnep
      rw [if_pos h1, if_neg hbp, if_pos hb', h2]
      rw [cell.openings_setOpening, cell.openings_setOpening]
      simp
    · have hbp : b ≠ p := by rw [← h1]; exact hba
      have hbnp : b ≠ np := by
        intro hb'
        apply h2
        apply moveOne_inj_dir e d a
        rw [← hmb, hb', hmnp, h1]
      rw [if_pos h1, if_neg hbp, if_neg hbnp]
      rw [cell.openings_setOpening, if_neg h2, ← h1]
      exact hsym a e b ha hvb
  · by_cases h2 : a = np
    · by_cases h3 : e = d.opposite
      · have hb' : b = p := by
          rw [hmb, hmp, h2, h3]
        rw [if_neg h1, if_pos h2, if_pos hb', h3]
        rw [cell.openings_setOpening, cell.openings_setOpening]
        rw [direction.opposite_opposite]
        simp
      · have hbp : b ≠ p := by
          intro hb'
          apply h3
          apply moveOne_inj_dir e d.opposite a
          rw [← hmb, hb', hmp, h2]
        have hbnp : b ≠ np := by rw [← h2]; exact hba
        rw [if_neg h1, if_pos h2, if_neg hbp, if_neg hbnp]
        rw [cell.openings_setOpening, if_neg h3, ← h2]
        exact hsym a e b ha hvb
    · rw [if_neg h1, if_neg h2]
      by_cases h3 : b = p
      · have hod : e.opposite ≠ d := by
          intro h'
          apply h2
          rw [hma, h', h3, ← hmnp]
        rw [if_pos h3]
        rw [cell.openings_setOpening, if_neg hod, ← h3]
        exact hsym a e b ha hvb
      · rw [if_neg h3]
        by_cases h4 : b = np
        · have hod : e.opposite ≠ d.opposite := by
            intro h'
            apply h1
            rw [hma, h', h4, ← hmp]
          rw [if_pos h4]
          rw [cell.openings_setOpening, if_neg hod, ← h4]
          exact hsym a e b ha hvb
        · rw [if_neg h4]
          exact hsym a e b ha hvb

theorem bnd_carve (m : maze) (p np : position) (d : direction)
    (hval : d.translate p m = (np, true)) (hp : m.inGrid p)
    (hlen : m.cells.length = (m.height * m.width).toNat)
    (hbnd : ∀ a e, m.inGrid a → (e.translate a m).2 = false →
      (m.at a).openings e = false) :
    ∀ a e, m.inGrid a → (e.translate a (m.carve p d)).2 = false →
      ((m.carve p d).at a).openings e = false := by
  intro a e ha hinv
  rw [translate_carve e a m p d np hval] at hinv
  have hnp : m.inGrid np := translate_inGrid d p np m hp hval
  rw [at_carve m p np d hval hp hlen a ha]
  by_cases h1 : a = p
  · subst h1
    have hed : e ≠ d := by
      intro h'
      subst h'
      rw [hval] at hinv
      simp at hinv
    rw [if_pos rfl, cell.openings_setOpening, if_neg hed]
    exact hbnd a e ha hinv
  · rw [if_neg h1]
    by_cases h2 : a = np
    · subst h2
      have hrev : d.opposite.translate a m = (p, true) :=
        translate_reverse d p a m hp hval
      have hed : e ≠ d.opposite := by
        intro h'
        subst h'
        rw [hrev] at hinv
        simp at hinv
      rw [if_pos rfl, cell.openings_setOpening, if_neg hed]
      exact hbnd a e ha hinv
    · rw [if_neg h2]
      exact hbnd a e ha hinv

theorem intn_perm_lt (r : Rng) : (r.intn permutations.length).1 < 24 := by
  show r.stream r.idx % permutations.length < 24
  have h : permutations.length = 24 := rfl
  rw [h]
  exact Nat.mod_lt _ (by norm_num)

theorem default_openings (e : direction) : (default : cell).openings e = false := by
  cases e <;> rfl

theorem closed_reach (r : position → position → Prop) (S : position → Prop)
    (hS : ∀ c, S c → ∀ q, r c q → S q) (a : position) (ha : S a) :
    ∀ c, Relation.ReflTransGen r a c → S c := by
  intro c h
  induction h with
  | refl => exact ha
  | tail _ hbc ih => exact hS _ ih _ hbc

theorem idx_bound (hgt wdt : Int) (p : position) (h1 : 0 ≤ p.x) (h2 : p.x < wdt)
    (h3 : 0 ≤ p.y) (h4 : p.y < hgt) :
    (p.y * wdt + p.x).toNat < (hgt * wdt).toNat := by
  have hw : 0 < wdt := by omega
  have hyx : p.y * wdt + p.x < hgt * wdt := by nlinarith
  have h0 : (0 : Int) ≤ p.y * wdt + p.x := by positivity
  omega

theorem visited_card_le (hgt wdt : Int) (l : List position) (hnd : l.Nodup)
    (hG : ∀ p ∈ l, 0 ≤ p.x ∧ p.x < wdt ∧ 0 ≤ p.y ∧ p.y < hgt) :
    l.length ≤ (hgt * wdt).toNat := by
  classical
  set M : maze := ⟨⟨0, 0⟩, ⟨0, 0⟩, hgt, wdt, []⟩ with hM
  have hGM : ∀ p ∈ l, M.inGrid p := fun p hp => hG p hp
  have hmapnd : (l.map M.idx).Nodup := by
    refine List.Nodup.map_on ?_ hnd
    intro x hx y hy hxy
    exact idx_inj M x y (hGM x hx) (hGM y hy) hxy
  have hsub : l.map M.idx ⊆ List.range (hgt * wdt).toNat := by
    intro i hi
    rw [List.mem_range]
    obtain ⟨p, hp, rfl⟩ := List.mem_map.mp hi
    obtain ⟨g1, g2, g3, g4⟩ := hG p hp
    exact idx_bound hgt wdt p g1 g2 g3 g4
  have hlen := (hmapnd.subperm hsub).length_le
  simpa using hlen

theorem GInv_preserved (hgt wdt : Int) (st fin : position) (s : GState)
    (hh : 2 ≤ hgt) (hw : 2 ≤ wdt) (inv : GInv hgt wdt st fin s) :
    GInv hgt wdt st fin (genStep s) := by
  cases hstk : s.stk with
  | nil =>
    rw [genStep_empty s hstk]
    exact inv
  | cons p rest =>
    have hpG : s.m.inGrid p := inv.stkG p (by rw [hstk]; exact List.mem_cons_self p rest)
    have hlen : s.m.cells.length = (s.m.height * s.m.width).toNat := by
      rw [inv.hm, inv.wm]; exact inv.clen
    cases hscan : scanDirs s.m s.visited p
        (permutations.getD ((s.rng.intn permutations.length).1) []) with
    | some dnp =>
      obtain ⟨d, np⟩ := dnp
      obtain ⟨hval, hnpv⟩ := scanDirs_some _ _ _ _ _ _ hscan
      rw [genStep_found s p rest d np hstk hscan]
      have hnpG : s.m.inGrid np := translate_inGrid d p np s.m hpG hval
      have hcmH : (s.m.carve p d).height = s.m.height := by
        rw [carve_eq _ _ _ _ hval]; rfl
      have hcmW : (s.m.carve p d).width = s.m.width := by
        rw [carve_eq _ _ _ _ hval]; rfl
      have hcmS : (s.m.carve p d).start = s.m.start := by
        rw [carve_eq _ _ _ _ hval]; rfl
      have hcmF : (s.m.carve p d).finish = s.m.finish := by
        rw [carve_eq _ _ _ _ hval]; rfl
      have hcmL : (s.m.carve p d).cells.length = s.m.cells.length := by
        rw [carve_eq _ _ _ _ hval, length_setOpening, length_setOpening]
      have hG : ∀ q, (s.m.carve p d).inGrid q ↔ s.m.inGrid q := by
        intro q; unfold maze.inGrid; rw [hcmH, hcmW]
      have hAdj : ∀ a c, gridAdj (s.m.carve p d) a c ↔ gridAdj s.m a c := by
        intro a c
        unfold gridAdj
        constructor <;> rintro ⟨e, he⟩ <;> refine ⟨e, ?_⟩
        · rwa [translate_carve e a s.m p d np hval] at he
        · rwa [translate_carve e a s.m p d np hval]
      have hOM : ∀ a c, openMove s.m a c → openMove (s.m.carve p d) a c := by
        intro a c h'
        rw [carve_eq _ _ _ _ hval]
        exact openMove_mono_setOpening_true _ _ _ _ _
          (openMove_mono_setOpening_true _ _ _ _ _ h')
      have hOMpnp : openMove (s.m.carve p d) p np := by
        refine ⟨d, ?_, ?_⟩
        · rw [translate_carve d p s.m p d np hval]; exact hval
        · rw [at_carve s.m p np d hval hpG hlen p hpG, if_pos rfl,
            cell.openings_setOpening, if_pos rfl]
      have hstG' : ∀ q ∈ s.stk, (s.m.carve p d).inGrid q := by
        intro q hq; rw [hG]; exact inv.stkG q hq
      refine ⟨?_, ?_, ?_, ?_, ?_, ?_, ?_, ?_, ?_, ?_, ?_, ?_, ?_, ?_⟩
      · rw [hcmH]; exact inv.hm
      · rw [hcmW]; exact inv.wm
      · rw [hcmS]; exact inv.stm
      · rw [hcmF]; exact inv.finm
      · rw [hcmL, hlen, inv.hm, inv.wm]
      · -- stkG
        intro q hq
        rcases List.mem_cons.mp hq with rfl | hq'
        · rw [hG]; exact hnpG
        · rw [← hstk] at hq'; exact hstG' q hq'
      · -- visG
        intro q hq
        rcases List.mem_cons.mp hq with rfl | hq'
        · rw [hG]; exact hnpG
        · rw [hG]; exact inv.visG q hq'
      · -- nodup
        exact List.nodup_cons.mpr ⟨hnpv, inv.nd⟩
      · -- closure
        intro c hc
        rcases List.mem_cons.mp hc with rfl | hc'
        · exact Or.inl (List.mem_cons_self _ _)
        · rcases inv.closure c hc' with hcs | hcc
          · refine Or.inl (List.mem_cons_of_mem _ ?_)
            rw [hstk] at hcs; exact hcs
          · refine Or.inr fun q hq => ?_
            exact List.mem_cons_of_mem _ (hcc q ((hAdj c q).mp hq))
      · -- bottom
        rcases inv.bottom with hb | ⟨pre, hb⟩
        · rw [hstk] at hb; simp at hb
        · rw [hstk] at hb
          exact Or.inr ⟨np :: pre, by rw [hb]; rfl⟩
      · -- startv
        rcases inv.startv with hv | hs'
        · exact Or.inl (List.mem_cons_of_mem _ hv)
        · rw [hstk] at hs'
          exact Or.inr (List.mem_cons_of_mem _ hs')
      · -- sym
        intro a e b ha hv
        refine sym_carve s.m p np d hval hpG hlen
          (fun a' e' b' ha' hv' => inv.sym a' e' b' ha' hv') a e b ?_ hv
        rw [← hG]; exact ha
      · -- bnd
        intro a e ha hv
        refine bnd_carve s.m p np d hval hpG hlen
          (fun a' e' ha' hv' => inv.bnd a' e' ha' hv') a e ?_ hv
        rw [← hG]; exact ha
      · -- reach
        intro c hc
        have hreach_m : ∀ c', (c' ∈ s.visited ∨ c' ∈ s.stk) →
            Relation.ReflTransGen (openMove (s.m.carve p d)) st c' := by
          intro c' hc'
          exact Relation.ReflTransGen.mono hOM (inv.reach c' hc')
        have hreachp : Relation.ReflTransGen (openMove (s.m.carve p d)) st p :=
          hreach_m p (Or.inr (by rw [hstk]; exact List.mem_cons_self _ _))
        have hreachnp : Relation.ReflTransGen (openMove (s.m.carve p d)) st np :=
          Relation.ReflTransGen.tail hreachp hOMpnp
        rcases hc with hc | hc
        · rcases List.mem_cons.mp hc with rfl | hc'
          · exact hreachnp
          · exact hreach_m c (Or.inl hc')
        · rcases List.mem_cons.mp hc with rfl | hc'
          · exact hreachnp
          · rw [← hstk] at hc'
            exact hreach_m c (Or.inr hc')
    | none =>
      have hallD : ∀ d : direction, ∀ q, d.translate p s.m = (q, true) →
          q ∈ s.visited := by
        intro d q hq
        exact scanDirs_none _ _ _ _ hscan d
          (permutations_complete _ (intn_perm_lt s.rng) d) q hq
      have hadjall : ∀ q, gridAdj s.m p q → q ∈ s.visited := by
        rintro q ⟨d, hd⟩
        exact hallD d q hd
      rw [genStep_pop s p rest hstk hscan]
      refine ⟨inv.hm, inv.wm, inv.stm, inv.finm, inv.clen, ?_, inv.visG, inv.nd,
        ?_, ?_, ?_, inv.sym, inv.bnd, ?_⟩
      · -- stkG
        intro q hq
        exact inv.stkG q (by rw [hstk]; exact List.mem_cons_of_mem _ hq)
      · -- closure
        intro c hc
        rcases inv.closure c hc with hcs | hcc
        · rw [hstk] at hcs
          rcases List.mem_cons.mp hcs with rfl | hc'
          · exact Or.inr hadjall
          · exact Or.inl hc'
        · exact Or.inr hcc
      · -- bottom
        rcases inv.bottom with hb | ⟨pre, hb⟩
        · rw [hstk] at hb; simp at hb
        · rw [hstk] at hb
          cases pre with
          | nil =>
            simp at hb
            exact Or.inl hb.2
          | cons x pre' =>
            simp only [List.cons_append, List.cons.injEq] at hb
            exact Or.inr ⟨pre', hb.2⟩
      · -- startv
        rcases inv.startv with hv | hs'
        · exact Or.inl hv
        · rw [hstk] at hs'
          rcases List.mem_cons.mp hs' with rfl | hc'
          · -- st = p popped; derive st ∈ visited
            by_cases hrest : st ∈ rest
            · exact Or.inr hrest
            · rcases inv.bottom with hb | ⟨pre, hb⟩
              · rw [hstk] at hb; simp at hb
              · rw [hstk] at hb
                cases pre with
                | nil =>
                  -- stack was [st]; use a neighbour's closure
                  simp at hb
                  obtain ⟨q, hq⟩ := neighbor_exists s.m st
                    (by rw [inv.hm]; exact hh) hpG
                  have hqv : q ∈ s.visited := hadjall q hq
                  rcases inv.closure q hqv with hqs | hqc
                  · rw [hstk] at hqs
                    rcases List.mem_cons.mp hqs with rfl | hq'
                    · exact absurd rfl (gridAdj_ne _ _ _ hq)
                    · rw [hb] at hq'
                      simp at hq'
                  · exact Or.inl (hqc st (gridAdj_symm s.m st q hpG hq))
                | cons x pre' =>
                  simp only [List.cons_append, List.cons.injEq] at hb
                  rw [hb.2] at hrest
                  simp at hrest
          · exact Or.inr hc'
      · -- reach
        intro c hc
        refine inv.reach c ?_
        rcases hc with hc | hc
        · exact Or.inl hc
        · exact Or.inr (by rw [hstk]; exact List.mem_cons_of_mem _ hc)

theorem inGrid_bounds (hgt wdt : Int) (st fin : position) (s : GState)
    (inv : GInv hgt wdt st fin s) (q : position) (hq : s.m.inGrid q) :
    0 ≤ q.x ∧ q.x < wdt ∧ 0 ≤ q.y ∧ q.y < hgt := by
  unfold maze.inGrid at hq
  rw [inv.hm, inv.wm] at hq
  exact hq

theorem measure_decreases (hgt wdt : Int) (st fin : position) (s : GState)
    (inv : GInv hgt wdt st fin s) (hne : s.stk ≠ []) :
    loopMeasure (hgt * wdt).toNat (genStep s).visited (genStep s).stk <
      loopMeasure (hgt * wdt).toNat s.visited s.stk := by
  cases hstk : s.stk with
  | nil => exact absurd hstk hne
  | cons p rest =>
    have hpG : s.m.inGrid p := inv.stkG p (by rw [hstk]; exact List.mem_cons_self p rest)
    cases hscan : scanDirs s.m s.visited p
        (permutations.getD ((s.rng.intn permutations.length).1) []) with
    | some dnp =>
      obtain ⟨d, np⟩ := dnp
      obtain ⟨hval, hnpv⟩ := scanDirs_some _ _ _ _ _ _ hscan
      rw [genStep_found s p rest d np hstk hscan]
      have hvN : (np :: s.visited).length ≤ (hgt * wdt).toNat := by
        apply visited_card_le
        · exact List.nodup_cons.mpr ⟨hnpv, inv.nd⟩
        · intro q hq
          rcases List.mem_cons.mp hq with rfl | hq'
          · exact inGrid_bounds hgt wdt st fin s inv q
              (translate_inGrid d p q s.m hpG hval)
          · exact inGrid_bounds hgt wdt st fin s inv q (inv.visG q hq')
      simp only [List.length_cons] at hvN
      simp only [loopMeasure, List.length_cons, hstk]
      omega
    | none =>
      rw [genStep_pop s p rest hstk hscan]
      simp only [loopMeasure, hstk, List.length_cons]
      omega

theorem genLoop_spec (hgt wdt : Int) (st fin : position) (hh : 2 ≤ hgt)
    (hw : 2 ≤ wdt) :
    ∀ fuel s, GInv hgt wdt st fin s →
      loopMeasure (hgt * wdt).toNat s.visited s.stk ≤ fuel →
      (genLoop fuel s).stk = [] ∧ GInv hgt wdt st fin (genLoop fuel s) := by
  intro fuel
  induction fuel with
  | zero =>
    intro s inv hle
    have hz : s.stk.length = 0 := by
      unfold loopMeasure at hle
      omega
    exact ⟨List.length_eq_zero.mp hz, inv⟩
  | succ fuel ih =>
    intro s inv hle
    rw [genLoop]
    by_cases hse : s.stk = []
    · rw [if_pos hse]
      exact ⟨hse, inv⟩
    · rw [if_neg hse]
      refine ih (genStep s) (GInv_preserved hgt wdt st fin s hh hw inv) ?_
      have := measure_decreases hgt wdt st fin s inv hse
      omega

theorem final_visited_full (hgt wdt : Int) (st fin : position) (s : GState)
    (inv : GInv hgt wdt st fin s) (hstk : s.stk = []) (hstG : s.m.inGrid st) :
    ∀ q, s.m.inGrid q → q ∈ s.visited := by
  have hstv : st ∈ s.visited := by
    rcases inv.startv with h | h
    · exact h
    · rw [hstk] at h
      simp at h
  have hclosed : ∀ c, c ∈ s.visited → ∀ q, gridAdj s.m c q → q ∈ s.visited := by
    intro c hc q hq
    rcases inv.closure c hc with h | h
    · rw [hstk] at h
      simp at h
    · exact h q hq
  intro q hq
  exact closed_reach (gridAdj s.m) (· ∈ s.visited) hclosed st hstv q
    (grid_reach s.m _ st q hstG hq rfl)

theorem at_replicate (m : maze)
    (hc : m.cells = List.replicate (m.height * m.width).toNat default)
    (q : position) : m.at q = default := by
  unfold maze.at
  rw [hc]
  unfold List.getD
  cases h : (List.replicate ((m.height * m.width).toNat) (default : cell)).get?
      (m.idx q) with
  | none => rfl
  | some c =>
    rw [List.eq_of_mem_replicate (List.get?_mem h)]
    rfl

theorem GInv_init (m : maze) (rng : Rng) (hstG : m.inGrid m.start)
    (hclen : m.cells.length = (m.height * m.width).toNat)
    (hAt : ∀ q, m.at q = default) :
    GInv m.height m.width m.start m.finish (genInit m rng) := by
  refine ⟨rfl, rfl, rfl, rfl, hclen, ?_, ?_, ?_, ?_, ?_, ?_, ?_, ?_, ?_⟩
  · intro p hp
    simp only [genInit, List.mem_singleton] at hp
    rw [hp]
    exact hstG
  · intro p hp
    simp [genInit] at hp
  · simp [genInit]
  · intro c hc
    simp [genInit] at hc
  · exact Or.inr ⟨[], rfl⟩
  · exact Or.inr (by simp [genInit])
  · intro p d q _ _
    show (m.at p).openings d = (m.at q).openings d.opposite
    rw [hAt p, hAt q, default_openings, default_openings]
  · intro p d _ _
    show (m.at p).openings d = false
    rw [hAt p]
    exact default_openings d
  · intro c hc
    have hc' : c = m.start := by
      rcases hc with h | h
      · simp [genInit] at h
      · simpa [genInit] using h
    rw [hc']

theorem newMaze_spec (height width : Int) (rng : Rng) (mode : Bool)
    (m : maze) (rng' : Rng)
    (h : newMaze height width rng mode = some (m, rng')) :
    m.height = height ∧ m.width = width ∧
    m.cells = List.replicate (height * width).toNat default ∧
    m.inGrid m.start ∧ m.inGrid m.finish ∧
    m.start.y = 0 ∧ m.finish.y = height - 1 := by
  unfold newMaze at h
  by_cases hg : width < 2 ∨ height < 2
  · rw [if_pos hg] at h
    simp at h
  · rw [if_neg hg] at h
    push_neg at hg
    obtain ⟨hw2, hh2⟩ := hg
    simp only [Option.some.injEq, Prod.mk.injEq] at h
    obtain ⟨hm, _⟩ := h
    subst hm
    cases mode with
    | false =>
      have hmod1 : (rng.intn width.toNat).1 < width.toNat := by
        show rng.stream rng.idx % width.toNat < width.toNat
        exact Nat.mod_lt _ (by omega)
      have hmod2 : ((rng.intn width.toNat).2.intn width.toNat).1 < width.toNat := by
        show _ % width.toNat < width.toNat
        exact Nat.mod_lt _ (by omega)
      refine ⟨rfl, rfl, rfl, ?_, ?_, rfl, rfl⟩ <;>
      · simp only [maze.inGrid, Bool.false_eq_true, if_false, position.x_mk,
          position.y_mk]
        omega
    | true =>
      refine ⟨rfl, rfl, rfl, ?_, ?_, rfl, rfl⟩ <;>
      · simp only [maze.inGrid, if_true, position.x_mk, position.y_mk]
        omega

theorem inGrid_iff (hgt wdt : Int) (st fin : position) (s : GState)
    (inv : GInv hgt wdt st fin s) (q : position) :
    s.m.inGrid q ↔ 0 ≤ q.x ∧ q.x < wdt ∧ 0 ≤ q.y ∧ q.y < hgt := by
  unfold maze.inGrid
  rw [inv.hm, inv.wm]

theorem generate_loop_result (height width : Int) (rng0 rng1 : Rng) (mode : Bool)
    (m0 : maze) (hh : 2 ≤ height) (hw : 2 ≤ width)
    (hnew : newMaze height width rng0 mode = some (m0, rng1)) :
    (genLoop m0.genFuel (genInit m0 rng1)).stk = [] ∧
    GInv height width m0.start m0.finish (genLoop m0.genFuel (genInit m0 rng1)) ∧
    (∀ q, (genLoop m0.genFuel (genInit m0 rng1)).m.inGrid q ↔
      q ∈ (genLoop m0.genFuel (genInit m0 rng1)).visited) := by
  obtain ⟨hmH, hmW, hcells, hstG, hfinG, hsty, hfiny⟩ :=
    newMaze_spec height width rng0 mode m0 rng1 hnew
  have hclen : m0.cells.length = (m0.height * m0.width).toNat := by
    rw [hcells, hmH, hmW, List.length_replicate]
  have hAt : ∀ q, m0.at q = default :=
    at_replicate m0 (by rw [hcells, hmH, hmW]) 
  have inv0 : GInv m0.height m0.width m0.start m0.finish (genInit m0 rng1) :=
    GInv_init m0 rng1 hstG hclen hAt
  rw [hmH, hmW] at inv0
  have hfuel : loopMeasure (height * width).toNat (genInit m0 rng1).visited
      (genInit m0 rng1).stk ≤ m0.genFuel := by
    unfold loopMeasure genInit maze.genFuel
    rw [hmH, hmW]
    simp only [List.length_nil, List.length_cons]
    omega
  obtain ⟨hstk, invF⟩ := genLoop_spec height width m0.start m0.finish hh hw
    m0.genFuel _ inv0 hfuel
  refine ⟨hstk, invF, fun q => ⟨fun hq => ?_, fun hq => invF.visG q hq⟩⟩
  refine final_visited_full height width m0.start m0.finish _ invF hstk ?_ q hq
  rw [inGrid_iff height width m0.start m0.finish _ invF]
  obtain ⟨g1, g2, g3, g4⟩ := hstG
  rw [hmH] at g4
  rw [hmW] at g2
  exact ⟨g1, g2, g3, g4⟩

theorem at_setOpening2 (m : maze) (r1 r2 : position) (e1 e2 : direction)
    (b1 b2 : Bool) (h12 : r1 ≠ r2) (h1 : m.inGrid r1) (h2 : m.inGrid r2)
    (hlen : m.cells.length = (m.height * m.width).toNat) (q : position)
    (hq : m.inGrid q) :
    ((m.setOpening r1 e1 b1).setOpening r2 e2 b2).at q =
      if q = r2 then (m.at r2).setOpening e2 b2
      else if q = r1 then (m.at r1).setOpening e1 b1
      else m.at q := by
  have hlen1 : (m.setOpening r1 e1 b1).cells.length =
      ((m.setOpening r1 e1 b1).height * (m.setOpening r1 e1 b1).width).toNat := by
    rw [length_setOpening, height_setOpening, width_setOpening]
    exact hlen
  by_cases hq2 : q = r2
  · rw [if_pos hq2, hq2]
    rw [at_setOpening_self (m.setOpening r1 e1 b1) r2 e2 b2 h2 hlen1]
    rw [at_setOpening_ne m r1 r2 e1 b1 h1 h2 (Ne.symm h12)]
  · rw [if_neg hq2]
    rw [at_setOpening_ne (m.setOpening r1 e1 b1) r2 q e2 b2 h2 hq hq2]
    by_cases hq1 : q = r1
    · rw [if_pos hq1, hq1, at_setOpening_self m r1 e1 b1 h1 hlen]
    · rw [if_neg hq1, at_setOpening_ne m r1 q e1 b1 h1 hq hq1]

theorem sym_setOpening_inv (m : maze) (r : position) (e : direction)
    (hr : m.inGrid r) (hinvd : (e.translate r m).2 = false)
    (hlen : m.cells.length = (m.height * m.width).toNat)
    (hsym : ∀ a f b, m.inGrid a → f.translate a m = (b, true) →
      (m.at a).openings f = (m.at b).openings f.opposite) :
    ∀ a f b, (m.setOpening r e true).inGrid a →
      f.translate a (m.setOpening r e true) = (b, true) →
      ((m.setOpening r e true).at a).openings f =
        ((m.setOpening r e true).at b).openings f.opposite := by
  intro a f b ha hv
  rw [translate_setOpening] at hv
  have ha' : m.inGrid a := ha
  have hb' : m.inGrid b := translate_inGrid f a b m ha' hv
  have hrev : f.opposite.translate b m = (a, true) := translate_reverse f a b m ha' hv
  by_cases h1 : a = r
  · have hfe : f ≠ e := by
      intro h'
      rw [h1, h'] at hv
      rw [hv] at hinvd
      simp at hinvd
    rw [h1, at_setOpening_self m r e true hr hlen]
    rw [cell.openings_setOpening, if_neg hfe]
    by_cases h2 : b = r
    · exact absurd (h2.trans h1.symm) (translate_ne f a b m hv)
    · rw [at_setOpening_ne m r b e true hr hb' h2, ← h1]
      exact hsym a f b ha' hv
  · rw [at_setOpening_ne m r a e true hr ha' h1]
    by_cases h2 : b = r
    · have hfo : f.opposite ≠ e := by
        intro h'
        rw [h2, h'] at hrev
        rw [hrev] at hinvd
        simp at hinvd
      rw [h2, at_setOpening_self m r e true hr hlen]
      rw [cell.openings_setOpening, if_neg hfo, ← h2]
      exact hsym a f b ha' hv
    · rw [at_setOpening_ne m r b e true hr hb' h2]
      exact hsym a f b ha' hv

/-- C10: after `generate()` completes, wall openings are symmetric
(for every in-bounds pair of adjacent cells, the wall is open from one
side exactly when it is open from the other), and the only open walls
on the grid boundary are the entrance cell's north wall and the exit
cell's south wall. -/
theorem C10_openings_symmetric_and_boundary (height width : Int) (rng0 : Rng)
    (mode : Bool) (hh : 2 ≤ height) (hw : 2 ≤ width) (m0 : maze) (rng1 : Rng)
    (hnew : newMaze height width rng0 mode = some (m0, rng1)) :
    (∀ p d q, (m0.generate rng1).1.inGrid p →
      d.translate p (m0.generate rng1).1 = (q, true) →
      ((m0.generate rng1).1.at p).openings d =
        ((m0.generate rng1).1.at q).openings d.opposite) ∧
    (∀ p d, (m0.generate rng1).1.inGrid p →
      (d.translate p (m0.generate rng1).1).2 = false →
      (((m0.generate rng1).1.at p).openings d = true ↔
        (p = (m0.generate rng1).1.start ∧ d = north) ∨
        (p = (m0.generate rng1).1.finish ∧ d = south))) := by
  obtain ⟨hmH, hmW, hcells, hstG, hfinG, hsty, hfiny⟩ :=
    newMaze_spec height width rng0 mode m0 rng1 hnew
  obtain ⟨hstk, invF, hfull⟩ :=
    generate_loop_result height width rng0 rng1 mode m0 hh hw hnew
  set s := genLoop m0.genFuel (genInit m0 rng1) with hs
  have hgen1 : (m0.generate rng1).1 =
      (s.m.setOpening m0.start north true).setOpening m0.finish south true := rfl
  have hlenS : s.m.cells.length = (s.m.height * s.m.width).toNat := by
    rw [invF.hm, invF.wm]
    exact invF.clen
  have hstS : s.m.inGrid m0.start := by
    rw [inGrid_iff height width m0.start m0.finish s invF]
    obtain ⟨g1, g2, g3, g4⟩ := hstG
    rw [hmW] at g2
    rw [hmH] at g4
    exact ⟨g1, g2, g3, g4⟩
  have hfinS : s.m.inGrid m0.finish := by
    rw [inGrid_iff height width m0.start m0.finish s invF]
    obtain ⟨g1, g2, g3, g4⟩ := hfinG
    rw [hmW] at g2
    rw [hmH] at g4
    exact ⟨g1, g2, g3, g4⟩
  have hSF : m0.start ≠ m0.finish := by
    intro h
    rw [h, hfiny] at hsty
    omega
  have hninv : (north.translate m0.start s.m).2 = false := by
    simp [direction.translate, hsty]
  have hsinv : (south.translate m0.finish s.m).2 = false := by
    have hH : s.m.height = height := invF.hm
    simp [direction.translate, hH, hfiny]
  constructor
  · have step1 := sym_setOpening_inv s.m m0.start north hstS hninv hlenS
      (fun a f b ha hv => invF.sym a f b ha hv)
    have hlen1 : (s.m.setOpening m0.start north true).cells.length =
        ((s.m.setOpening m0.start north true).height *
          (s.m.setOpening m0.start north true).width).toNat := by
      rw [length_setOpening, height_setOpening, width_setOpening]
      exact hlenS
    have hfin1 : (s.m.setOpening m0.start north true).inGrid m0.finish := hfinS
    have hsinv1 : (south.translate m0.finish
        (s.m.setOpening m0.start north true)).2 = false := by
      rw [translate_setOpening]
      exact hsinv
    have step2 := sym_setOpening_inv (s.m.setOpening m0.start north true)
      m0.finish south hfin1 hsinv1 hlen1 step1
    intro p d q hp hv
    rw [hgen1] at hp hv ⊢
    exact step2 p d q hp hv
  · intro p d hp hinv
    rw [hgen1] at hp hinv ⊢
    have hp' : s.m.inGrid p := hp
    have hinv' : (d.translate p s.m).2 = false := by
      rwa [translate_setOpening, translate_setOpening] at hinv
    have hbndv := invF.bnd p d hp' hinv'
    have hstart_eq : ((s.m.setOpening m0.start north true).setOpening m0.finish
        south true).start = m0.start := by
      rw [start_setOpening, start_setOpening, invF.stm]
    have hfin_eq : ((s.m.setOpening m0.start north true).setOpening m0.finish
        south true).finish = m0.finish := by
      rw [finish_setOpening, finish_setOpening, invF.finm]
    rw [at_setOpening2 s.m m0.start m0.finish north south true true hSF hstS
      hfinS hlenS p hp', hstart_eq, hfin_eq]
    by_cases h1 : p = m0.finish
    · rw [if_pos h1, cell.openings_setOpening]
      by_cases h2 : d = south
      · rw [if_pos h2]
        simp only [true_iff]
        exact Or.inr ⟨h1, h2⟩
      · rw [if_neg h2]
        rw [h1] at hbndv
        rw [hbndv]
        simp only [Bool.false_eq_true, false_iff]
        rintro (⟨hps, -⟩ | ⟨-, hds⟩)
        · exact hSF ((h1 ▸ hps : m0.finish = m0.start)).symm
        · exact h2 hds
    · rw [if_neg h1]
      by_cases h2 : p = m0.start
      · rw [if_pos h2, cell.openings_setOpening]
        by_cases h3 : d = north
        · rw [if_pos h3]
          simp only [true_iff]
          exact Or.inl ⟨h2, h3⟩
        · rw [if_neg h3]
          rw [h2] at hbndv
          rw [hbndv]
          simp only [Bool.false_eq_true, false_iff]
          rintro (⟨-, hdn⟩ | ⟨hpf, -⟩)
          · exact h3 hdn
          · exact h1 hpf
      · rw [if_neg h2, hbndv]
        simp only [Bool.false_eq_true, false_iff]
        rintro (⟨hps, -⟩ | ⟨hpf, -⟩)
        · exact h2 hps
        · exact h1 hpf

theorem genIter_of_empty (s : GState) (h : s.stk = []) :
    ∀ k, genIter s k = s := by
  intro k
  induction k with
  | zero => rfl
  | succ k ih =>
    unfold genIter at ih ⊢
    rw [Function.iterate_succ_apply', ih]
    unfold genStepG
    rw [if_pos h]

theorem genLoop_eq_iterate : ∀ fuel s, genLoop fuel s = genIter s fuel := by
  intro fuel
  induction fuel with
  | zero => intro s; rfl
  | succ fuel ih =>
    intro s
    rw [genLoop]
    unfold genIter
    rw [Function.iterate_succ_apply]
    by_cases h : s.stk = []
    · rw [if_pos h]
      have : genStepG s = s := by unfold genStepG; rw [if_pos h]
      rw [this]
      exact (genIter_of_empty s h fuel).symm
    · rw [if_neg h]
      have : genStepG s = genStep s := by unfold genStepG; rw [if_neg h]
      rw [this]
      exact ih (genStep s)

theorem genStepG_visited_mono (s : GState) :
    s.visited ⊆ (genStepG s).visited := by
  unfold genStepG
  split
  · exact fun a ha => ha
  · rename_i hne
    cases hstk : s.stk with
    | nil => exact absurd hstk hne
    | cons p rest =>
      cases hscan : scanDirs s.m s.visited p
          (permutations.getD ((s.rng.intn permutations.length).1) []) with
      | some dnp =>
        obtain ⟨d, np⟩ := dnp
        rw [genStep_found s p rest d np hstk hscan]
        exact fun a ha => List.mem_cons_of_mem _ ha
      | none =>
        rw [genStep_pop s p rest hstk hscan]
        exact fun a ha => ha

theorem GInv_iter (hgt wdt : Int) (st fin : position) (hh : 2 ≤ hgt)
    (hw : 2 ≤ wdt) (s : GState) (inv : GInv hgt wdt st fin s) :
    ∀ k, GInv hgt wdt st fin (genIter s k) := by
  intro k
  induction k with
  | zero => exact inv
  | succ k ih =>
    unfold genIter at ih ⊢
    rw [Function.iterate_succ_apply']
    unfold genStepG
    split
    · exact ih
    · exact GInv_preserved hgt wdt st fin _ hh hw ih

theorem newMaze_inv0 (height width : Int) (rng0 rng1 : Rng) (mode : Bool)
    (m0 : maze) (hnew : newMaze height width rng0 mode = some (m0, rng1)) :
    GInv height width m0.start m0.finish (genInit m0 rng1) := by
  obtain ⟨hmH, hmW, hcells, hstG, hfinG, hsty, hfiny⟩ :=
    newMaze_spec height width rng0 mode m0 rng1 hnew
  have hclen : m0.cells.length = (m0.height * m0.width).toNat := by
    rw [hcells, hmH, hmW, List.length_replicate]
  have hAt : ∀ q, m0.at q = default :=
    at_replicate m0 (by rw [hcells, hmH, hmW])
  have inv0 : GInv m0.height m0.width m0.start m0.finish (genInit m0 rng1) :=
    GInv_init m0 rng1 hstG hclen hAt
  rw [hmH, hmW] at inv0
  exact inv0

/-- C8: for every valid grid the generation loop terminates — the
stack empties within the loop-measure bound, at that moment the
visited map holds every cell exactly once, and along the whole run the
visited map only grows and its size never exceeds `height*width`. -/
theorem C8_generation_loop_terminates (height width : Int) (rng0 rng1 : Rng)
    (mode : Bool) (hh2 : 2 ≤ height) (hhM : height ≤ maxDimension)
    (hw2 : 2 ≤ width) (hwM : width ≤ maxDimension) (m0 : maze)
    (hnew : newMaze height width rng0 mode = some (m0, rng1)) :
    ∃ n, n ≤ 2 * (height * width).toNat + 2 ∧
      (∀ k, k < n → (genIter (genInit m0 rng1) k).stk ≠ []) ∧
      (genIter (genInit m0 rng1) n).stk = [] ∧
      (∀ q, (0 ≤ q.x ∧ q.x < width ∧ 0 ≤ q.y ∧ q.y < height) ↔
        q ∈ (genIter (genInit m0 rng1) n).visited) ∧
      (genIter (genInit m0 rng1) n).visited.Nodup ∧
      (∀ k, (genIter (genInit m0 rng1) k).visited ⊆
        (genIter (genInit m0 rng1) (k + 1)).visited) ∧
      (∀ k, (genIter (genInit m0 rng1) k).visited.length ≤
        (height * width).toNat) := by
  classical
  obtain ⟨hmH, hmW, hcells, hstG, hfinG, hsty, hfiny⟩ :=
    newMaze_spec height width rng0 mode m0 rng1 hnew
  obtain ⟨hstk, invF, hfull⟩ :=
    generate_loop_result height width rng0 rng1 mode m0 hh2 hw2 hnew
  rw [genLoop_eq_iterate] at hstk
  have inv0 := newMaze_inv0 height width rng0 rng1 mode m0 hnew
  have hfuel_eq : m0.genFuel = 2 * (height * width).toNat + 2 := by
    unfold maze.genFuel
    rw [hmH, hmW]
  have hex : ∃ k, (genIter (genInit m0 rng1) k).stk = [] := ⟨m0.genFuel, hstk⟩
  have invI := GInv_iter height width m0.start m0.finish hh2 hw2 _ inv0
  refine ⟨Nat.find hex, ?_, ?_, ?_, ?_, ?_, ?_, ?_⟩
  · exact hfuel_eq ▸ Nat.find_min' hex hstk
  · intro k hk
    exact Nat.find_min hex hk
  · exact Nat.find_spec hex
  · intro q
    constructor
    · intro hq
      refine final_visited_full height width m0.start m0.finish _
        (invI (Nat.find hex)) (Nat.find_spec hex) ?_ q ?_
      · rw [inGrid_iff height width m0.start m0.finish _ (invI (Nat.find hex))]
        obtain ⟨g1, g2, g3, g4⟩ := hstG
        rw [hmW] at g2
        rw [hmH] at g4
        exact ⟨g1, g2, g3, g4⟩
      · rw [inGrid_iff height width m0.start m0.finish _ (invI (Nat.find hex))]
        exact hq
    · intro hq
      exact inGrid_bounds height width m0.start m0.finish _ (invI (Nat.find hex))
        q ((invI (Nat.find hex)).visG q hq)
  · exact (invI (Nat.find hex)).nd
  · intro k
    unfold genIter
    rw [Function.iterate_succ_apply']
    exact genStepG_visited_mono _
  · intro k
    refine visited_card_le height width _ (invI k).nd ?_
    intro p hp
    exact inGrid_bounds height width m0.start m0.finish _ (invI k) p
      ((invI k).visG p hp)

theorem solveScan_some (m : maze) (visited : List position) (p : position)
    (ds : List direction) (np : position)
    (h : solveScan m visited p ds = some np) :
    ∃ d, d ∈ ds ∧ d.translate p m = (np, true) ∧ np ∉ visited ∧
      (m.at p).openings d = true := by
  induction ds with
  | nil => simp [solveScan] at h
  | cons d0 ds ih =>
    rw [solveScan] at h
    rcases he : d0.translate p m with ⟨np0, ok0⟩
    simp only [he] at h
    by_cases hcond : ok0 = true ∧ np0 ∉ visited ∧ (m.at p).openings d0 = true
    · rw [if_pos hcond] at h
      obtain rfl : np0 = np := by simpa using h
      exact ⟨d0, List.mem_cons_self _ _, by rw [he, hcond.1], hcond.2.1, hcond.2.2⟩
    · rw [if_neg hcond] at h
      obtain ⟨d, hmem, h1, h2, h3⟩ := ih h
      exact ⟨d, List.mem_cons_of_mem _ hmem, h1, h2, h3⟩

theorem solveScan_none (m : maze) (visited : List position) (p : position)
    (ds : List direction) (h : solveScan m visited p ds = none) :
    ∀ d ∈ ds, ∀ q, d.translate p m = (q, true) →
      (m.at p).openings d = true → q ∈ visited := by
  induction ds with
  | nil => simp
  | cons d0 ds ih =>
    rw [solveScan] at h
    rcases he : d0.translate p m with ⟨np0, ok0⟩
    simp only [he] at h
    by_cases hcond : ok0 = true ∧ np0 ∉ visited ∧ (m.at p).openings d0 = true
    · rw [if_pos hcond] at h
      simp at h
    · rw [if_neg hcond] at h
      intro d hd q hq hop
      rcases List.mem_cons.mp hd with rfl | hmem
      · rw [he] at hq
        obtain ⟨rfl, rfl⟩ : np0 = q ∧ ok0 = true := by simpa [Prod.ext_iff] using hq
        by_contra hqv
        exact hcond ⟨rfl, hqv, hop⟩
      · exact ih h d hmem q hq hop

theorem solveLoop_ret (m : maze) (fuel : Nat) (p : position)
    (rest visited : List position) (hfin : m.finish ∈ visited) :
    solveLoop m (fuel + 1) (p :: rest) visited = some (p :: rest).reverse := by
  rw [solveLoop, if_pos hfin]

theorem solveLoop_push (m : maze) (fuel : Nat) (p : position)
    (rest visited : List position) (np : position) (hfin : m.finish ∉ visited)
    (hscan : solveScan m visited p [north, south, east, west] = some np) :
    solveLoop m (fuel + 1) (p :: rest) visited =
      solveLoop m fuel (np :: p :: rest) (np :: visited) := by
  rw [solveLoop, if_neg hfin, hscan]

theorem solveLoop_pop (m : maze) (fuel : Nat) (p : position)
    (rest visited : List position) (hfin : m.finish ∉ visited)
    (hscan : solveScan m visited p [north, south, east, west] = none) :
    solveLoop m (fuel + 1) (p :: rest) visited = solveLoop m fuel rest visited := by
  rw [solveLoop, if_neg hfin, hscan]

theorem solveLoop_spec (m : maze)
    (hreach : Relation.ReflTransGen (openMove m) m.start m.finish) :
    ∀ fuel stk visited, SInv m stk visited → stk ≠ [] →
      loopMeasure (m.height * m.width).toNat visited stk ≤ fuel →
      ∃ path, solveLoop m fuel stk visited = some path ∧
        path.head? = some m.start ∧ path.getLast? = some m.finish ∧
        List.Chain' (openMove m) path := by
  intro fuel
  induction fuel with
  | zero =>
    intro stk visited inv hne hle
    exfalso
    have : 0 < stk.length := List.length_pos.mpr hne
    unfold loopMeasure at hle
    omega
  | succ fuel ih =>
    intro stk visited inv hne hle
    cases stk with
    | nil => exact absurd rfl hne
    | cons p rest =>
      have hpG : m.inGrid p := inv.stkG p (List.mem_cons_self p rest)
      by_cases hfin : m.finish ∈ visited
      · refine ⟨(p :: rest).reverse, solveLoop_ret m fuel p rest visited hfin,
          ?_, ?_, ?_⟩
        · rw [List.head?_reverse]
          rcases inv.bottom with h | ⟨pre, hpre⟩
          · simp at h
          · rw [hpre, List.getLast?_concat]
        · rw [List.getLast?_reverse]
          simpa using inv.finv hfin
        · rw [List.chain'_reverse]
          exact inv.chain
      · cases hscan : solveScan m visited p [north, south, east, west] with
        | some np =>
          obtain ⟨d, _, hval, hnv, hop⟩ := solveScan_some m visited p _ np hscan
          have hnpG : m.inGrid np := translate_inGrid d p np m hpG hval
          have hvN : (np :: visited).length ≤ (m.height * m.width).toNat := by
            refine visited_card_le m.height m.width _
              (List.nodup_cons.mpr ⟨hnv, inv.nd⟩) ?_
            intro q hq
            rcases List.mem_cons.mp hq with rfl | hq'
            · exact hnpG
            · exact inv.visG q hq'
          have inv' : SInv m (np :: p :: rest) (np :: visited) := by
            refine ⟨?_, ?_, ?_, ?_, ?_, ?_, ?_, ?_, ?_⟩
            · intro q hq
              rcases List.mem_cons.mp hq with rfl | hq'
              · exact hnpG
              · exact inv.stkG q hq'
            · intro q hq
              rcases List.mem_cons.mp hq with rfl | hq'
              · exact hnpG
              · exact inv.visG q hq'
            · exact List.nodup_cons.mpr ⟨hnv, inv.nd⟩
            · intro q hq
              rcases List.mem_cons.mp hq with rfl | hq'
              · exact List.mem_cons_self _ _
              · exact List.mem_cons_of_mem _ (inv.stkv q hq')
            · rw [List.chain'_cons]
              exact ⟨⟨d, hval, hop⟩, inv.chain⟩
            · rcases inv.bottom with h | ⟨pre, hpre⟩
              · simp at h
              · exact Or.inr ⟨np :: pre, by rw [hpre]; rfl⟩
            · exact List.mem_cons_of_mem _ inv.startv
            · intro c hc
              rcases List.mem_cons.mp hc with rfl | hc'
              · exact Or.inl (List.mem_cons_self _ _)
              · rcases inv.closure c hc' with hcs | hcc
                · exact Or.inl (List.mem_cons_of_mem _ hcs)
                · exact Or.inr fun q hq => List.mem_cons_of_mem _ (hcc q hq)
            · intro hfin'
              rcases List.mem_cons.mp hfin' with h | h
              · rw [h]
                rfl
              · exact absurd h hfin
          have hle' : loopMeasure (m.height * m.width).toNat (np :: visited)
              (np :: p :: rest) ≤ fuel := by
            simp only [loopMeasure, List.length_cons] at hle hvN ⊢
            omega
          obtain ⟨path, hsl, h1, h2, h3⟩ :=
            ih (np :: p :: rest) (np :: visited) inv' (by simp) hle'
          exact ⟨path, by
            rw [solveLoop_push m fuel p rest visited np hfin hscan]
            exact hsl, h1, h2, h3⟩
        | none =>
          have hclosedp : ∀ q, openMove m p q → q ∈ visited := by
            rintro q ⟨d, hv, ho⟩
            exact solveScan_none m visited p _ hscan d (by cases d <;> simp) q hv ho
          cases rest with
          | nil =>
            exfalso
            have hclosed : ∀ c, c ∈ visited → ∀ q, openMove m c q → q ∈ visited := by
              intro c hc q hq
              rcases inv.closure c hc with hcs | hcc
              · rcases List.mem_cons.mp hcs with rfl | h
                · exact hclosedp q hq
                · simp at h
              · exact hcc q hq
            exact hfin (closed_reach (openMove m) (· ∈ visited) hclosed m.start
              inv.startv m.finish hreach)
          | cons p2 rest2 =>
            have inv' : SInv m (p2 :: rest2) visited := by
              refine ⟨?_, inv.visG, inv.nd, ?_, ?_, ?_, inv.startv, ?_, ?_⟩
              · intro q hq
                exact inv.stkG q (List.mem_cons_of_mem _ hq)
              · intro q hq
                exact inv.stkv q (List.mem_cons_of_mem _ hq)
              · exact inv.chain.tail
              · rcases inv.bottom with h | ⟨pre, hpre⟩
                · simp at h
                · cases pre with
                  | nil => simp at hpre
                  | cons x pre' =>
                    simp only [List.cons_append, List.cons.injEq] at hpre
                    exact Or.inr ⟨pre', hpre.2⟩
              · intro c hc
                rcases inv.closure c hc with hcs | hcc
                · rcases List.mem_cons.mp hcs with rfl | h
                  · exact Or.inr hclosedp
                  · exact Or.inl h
                · exact Or.inr hcc
              · intro hfin'
                exact absurd hfin' hfin
            have hle' : loopMeasure (m.height * m.width).toNat visited
                (p2 :: rest2) ≤ fuel := by
              simp only [loopMeasure, List.length_cons] at hle ⊢
              omega
            obtain ⟨path, hsl, h1, h2, h3⟩ :=
              ih (p2 :: rest2) visited inv' (by simp) hle'
            exact ⟨path, by
              rw [solveLoop_pop m fuel p (p2 :: rest2) visited hfin hscan]
              exact hsl, h1, h2, h3⟩

theorem solve_some (m : maze)
    (hreach : Relation.ReflTransGen (openMove m) m.start m.finish)
    (hstG : m.inGrid m.start) :
    ∃ path, m.solve = some path ∧ path.head? = some m.start ∧
      path.getLast? = some m.finish ∧ List.Chain' (openMove m) path := by
  have inv0 : SInv m [m.start] [m.start] := by
    refine ⟨?_, ?_, ?_, ?_, ?_, ?_, ?_, ?_, ?_⟩
    · intro q hq
      rw [List.mem_singleton] at hq
      rw [hq]
      exact hstG
    · intro q hq
      rw [List.mem_singleton] at hq
      rw [hq]
      exact hstG
    · simp
    · intro q hq
      exact hq
    · simp
    · exact Or.inr ⟨[], rfl⟩
    · simp
    · intro c hc
      exact Or.inl hc
    · intro hf
      rw [List.mem_singleton] at hf
      rw [hf]
      rfl
  have hm : loopMeasure (m.height * m.width).toNat [m.start] [m.start] ≤
      m.genFuel := by
    unfold loopMeasure maze.genFuel
    simp only [List.length_singleton]
    omega
  exact solveLoop_spec m hreach m.genFuel [m.start] [m.start] inv0 (by simp) hm

theorem generate_reaches (height width : Int) (rng0 rng1 : Rng) (mode : Bool)
    (m0 : maze) (hh : 2 ≤ height) (hw : 2 ≤ width)
    (hnew : newMaze height width rng0 mode = some (m0, rng1)) :
    ∀ q, (m0.generate rng1).1.inGrid q →
      Relation.ReflTransGen (openMove (m0.generate rng1).1) m0.start q := by
  obtain ⟨hstk, invF, hfull⟩ :=
    generate_loop_result height width rng0 rng1 mode m0 hh hw hnew
  set s := genLoop m0.genFuel (genInit m0 rng1) with hs
  have hgen1 : (m0.generate rng1).1 =
      (s.m.setOpening m0.start north true).setOpening m0.finish south true := rfl
  intro q hq
  have hq' : s.m.inGrid q := by
    rw [hgen1] at hq
    exact hq
  have hrs : Relation.ReflTransGen (openMove s.m) m0.start q :=
    invF.reach q (Or.inl ((hfull q).mp hq'))
  rw [hgen1]
  exact reach_mono_setOpening_true _ _ _ _ _
    (reach_mono_setOpening_true _ _ _ _ _ hrs)

/-- C2: for every generated grid, `solve` returns a path — the stack
in push order at the moment the exit is first marked visited, found
with the fixed scan order north, south, east, west, moving only
through open walls — that starts at the entrance, ends at the exit,
and whose consecutive positions are adjacent through an open wall. -/
theorem C2_solve_returns_path (height width : Int) (rng0 : Rng) (mode : Bool)
    (hh : 2 ≤ height) (hw : 2 ≤ width) (m0 : maze) (rng1 : Rng)
    (hnew : newMaze height width rng0 mode = some (m0, rng1)) :
    ∃ path, (m0.generate rng1).1.solve = some path ∧
      path.head? = some (m0.generate rng1).1.start ∧
      path.getLast? = some (m0.generate rng1).1.finish ∧
      List.Chain' (openMove (m0.generate rng1).1) path := by
  obtain ⟨hmH, hmW, hcells, hstG, hfinG, hsty, hfiny⟩ :=
    newMaze_spec height width rng0 mode m0 rng1 hnew
  obtain ⟨hstk, invF, hfull⟩ :=
    generate_loop_result height width rng0 rng1 mode m0 hh hw hnew
  set s := genLoop m0.genFuel (genInit m0 rng1) with hs
  have hgen1 : (m0.generate rng1).1 =
      (s.m.setOpening m0.start north true).setOpening m0.finish south true := rfl
  have hstart_eq : (m0.generate rng1).1.start = m0.start := by
    rw [hgen1, start_setOpening, start_setOpening, invF.stm]
  have hfin_eq : (m0.generate rng1).1.finish = m0.finish := by
    rw [hgen1, finish_setOpening, finish_setOpening, invF.finm]
  have hfinS : s.m.inGrid m0.finish := by
    rw [inGrid_iff height width m0.start m0.finish s invF]
    obtain ⟨g1, g2, g3, g4⟩ := hfinG
    rw [hmW] at g2
    rw [hmH] at g4
    exact ⟨g1, g2, g3, g4⟩
  have hstS : s.m.inGrid m0.start := by
    rw [inGrid_iff height width m0.start m0.finish s invF]
    obtain ⟨g1, g2, g3, g4⟩ := hstG
    rw [hmW] at g2
    rw [hmH] at g4
    exact ⟨g1, g2, g3, g4⟩
  have hfinGmf : (m0.generate rng1).1.inGrid m0.finish := by
    rw [hgen1]
    exact hfinS
  have hreach : Relation.ReflTransGen (openMove (m0.generate rng1).1)
      (m0.generate rng1).1.start (m0.generate rng1).1.finish := by
    rw [hstart_eq, hfin_eq]
    exact generate_reaches height width rng0 rng1 mode m0 hh hw hnew m0.finish
      hfinGmf
  have hstGmf : (m0.generate rng1).1.inGrid (m0.generate rng1).1.start := by
    rw [hstart_eq, hgen1]
    exact hstS
  exact solve_some _ hreach hstGmf

/-- C2 witness: the theorem applied to the concrete 2×2 maze built by
`newMaze 2 2` in opposite-corner mode with the all-zero stream. -/
theorem C2_solve_returns_path_witness :
    ∃ path, (((⟨⟨0, 0⟩, ⟨1, 1⟩, 2, 2, List.replicate 4 default⟩ : maze).generate
        ⟨fun _ => 0, 2⟩).1).solve = some path ∧
      path.head? = some ((⟨⟨0, 0⟩, ⟨1, 1⟩, 2, 2,
        List.replicate 4 default⟩ : maze).generate ⟨fun _ => 0, 2⟩).1.start ∧
      path.getLast? = some ((⟨⟨0, 0⟩, ⟨1, 1⟩, 2, 2,
        List.replicate 4 default⟩ : maze).generate ⟨fun _ => 0, 2⟩).1.finish ∧
      List.Chain' (openMove ((⟨⟨0, 0⟩, ⟨1, 1⟩, 2, 2,
        List.replicate 4 default⟩ : maze).generate ⟨fun _ => 0, 2⟩).1) path :=
  C2_solve_returns_path 2 2 ⟨fun _ => 0, 0⟩ true (by decide) (by decide)
    ⟨⟨0, 0⟩, ⟨1, 1⟩, 2, 2, List.replicate 4 default⟩ ⟨fun _ => 0, 2⟩ rfl

/-- C8 witness: the theorem applied to the same concrete 2×2 maze. -/
theorem C8_generation_loop_terminates_witness :
    ∃ n, n ≤ 2 * ((2 : Int) * 2).toNat + 2 ∧
      (∀ k, k < n → (genIter (genInit ⟨⟨0, 0⟩, ⟨1, 1⟩, 2, 2,
        List.replicate 4 default⟩ ⟨fun _ => 0, 2⟩) k).stk ≠ []) ∧
      (genIter (genInit ⟨⟨0, 0⟩, ⟨1, 1⟩, 2, 2, List.replicate 4 default⟩
        ⟨fun _ => 0, 2⟩) n).stk = [] ∧
      (∀ q : position, (0 ≤ q.x ∧ q.x < 2 ∧ 0 ≤ q.y ∧ q.y < 2) ↔
        q ∈ (genIter (genInit ⟨⟨0, 0⟩, ⟨1, 1⟩, 2, 2, List.replicate 4 default⟩
          ⟨fun _ => 0, 2⟩) n).visited) ∧
      (genIter (genInit ⟨⟨0, 0⟩, ⟨1, 1⟩, 2, 2, List.replicate 4 default⟩
        ⟨fun _ => 0, 2⟩) n).visited.Nodup ∧
      (∀ k, (genIter (genInit ⟨⟨0, 0⟩, ⟨1, 1⟩, 2, 2, List.replicate 4 default⟩
          ⟨fun _ => 0, 2⟩) k).visited ⊆
        (genIter (genInit ⟨⟨0, 0⟩, ⟨1, 1⟩, 2, 2, List.replicate 4 default⟩
          ⟨fun _ => 0, 2⟩) (k + 1)).visited) ∧
      (∀ k, (genIter (genInit ⟨⟨0, 0⟩, ⟨1, 1⟩, 2, 2, List.replicate 4 default⟩
        ⟨fun _ => 0, 2⟩) k).visited.length ≤ ((2 : Int) * 2).toNat) :=
  C8_generation_loop_terminates 2 2 ⟨fun _ => 0, 0⟩ ⟨fun _ => 0, 2⟩ true
    (by decide) (by decide) (by decide) (by decide)
    ⟨⟨0, 0⟩, ⟨1, 1⟩, 2, 2, List.replicate 4 default⟩ rfl

/-- C10 witness: the theorem applied to the same concrete 2×2 maze. -/
theorem C10_openings_symmetric_and_boundary_witness :
    (∀ p d q, ((⟨⟨0, 0⟩, ⟨1, 1⟩, 2, 2, List.replicate 4 default⟩ : maze).generate
        ⟨fun _ => 0, 2⟩).1.inGrid p →
      d.translate p ((⟨⟨0, 0⟩, ⟨1, 1⟩, 2, 2, List.replicate 4 default⟩ :
        maze).generate ⟨fun _ => 0, 2⟩).1 = (q, true) →
      (((⟨⟨0, 0⟩, ⟨1, 1⟩, 2, 2, List.replicate 4 default⟩ : maze).generate
        ⟨fun _ => 0, 2⟩).1.at p).openings d =
        (((⟨⟨0, 0⟩, ⟨1, 1⟩, 2, 2, List.replicate 4 default⟩ : maze).generate
          ⟨fun _ => 0, 2⟩).1.at q).openings d.opposite) ∧
    (∀ p d, ((⟨⟨0, 0⟩, ⟨1, 1⟩, 2, 2, List.replicate 4 default⟩ : maze).generate
        ⟨fun _ => 0, 2⟩).1.inGrid p →
      (d.translate p ((⟨⟨0, 0⟩, ⟨1, 1⟩, 2, 2, List.replicate 4 default⟩ :
        maze).generate ⟨fun _ => 0, 2⟩).1).2 = false →
      ((((⟨⟨0, 0⟩, ⟨1, 1⟩, 2, 2, List.replicate 4 default⟩ : maze).generate
        ⟨fun _ => 0, 2⟩).1.at p).openings d = true ↔
        (p = ((⟨⟨0, 0⟩, ⟨1, 1⟩, 2, 2, List.replicate 4 default⟩ : maze).generate
          ⟨fun _ => 0, 2⟩).1.start ∧ d = north) ∨
        (p = ((⟨⟨0, 0⟩, ⟨1, 1⟩, 2, 2, List.replicate 4 default⟩ : maze).generate
          ⟨fun _ => 0, 2⟩).1.finish ∧ d = south))) :=
  C10_openings_symmetric_and_boundary 2 2 ⟨fun _ => 0, 0⟩ true (by decide)
    (by decide) ⟨⟨0, 0⟩, ⟨1, 1⟩, 2, 2, List.replicate 4 default⟩
    ⟨fun _ => 0, 2⟩ rfl
